import Mathlib

namespace EVStation

/-!
Shallow embedding of the EV-charger placement solver
(`src/ev_station_solver/solving/solver_abstract.py` and
`src/ev_station_solver/solving/solver.py`).

Numpy float arithmetic is embedded as `ℚ`, matrices as functions from
(row, column) indices, and the docplex model as an explicit list of named
linear constraints.  Helper code the repository imports from modules that
are not among the two source files (`helper_functions.py`, `sample.py`,
`constants.py`, `location_improvement.py`) either enters as data (distance
matrices, samples, constants) or is modelled from the spec where noted.
-/

/-! ## List helpers (numpy reductions) -/

/-- Minimum of a list of rationals, as `np.min` computes it on a nonempty
array; the empty case returns a junk value and is never reached where the
source guarantees nonemptiness. -/
def listMin : List ℚ → ℚ
  | [] => 0
  | a :: l => l.foldl min a

/-- Maximum of a list of rationals, as `np.max` computes it on a nonempty
array. -/
def listMax : List ℚ → ℚ
  | [] => 0
  | a :: l => l.foldl max a

/-- Embedding of `np.min` as a fallible reduction: numpy raises
`ValueError` ("zero-size array to reduction operation minimum which has no
identity") on an empty array. -/
def npMin (l : List ℚ) : Except String ℚ :=
  match l with
  | [] => Except.error "zero-size array to reduction operation minimum which has no identity"
  | a :: t => Except.ok (t.foldl min a)

/-- Embedding of `np.max` as a fallible reduction, as `npMin`. -/
def npMax (l : List ℚ) : Except String ℚ :=
  match l with
  | [] => Except.error "zero-size array to reduction operation maximum which has no identity"
  | a :: t => Except.ok (t.foldl max a)

/-- Whether a fallible computation raised. -/
def isErr {α : Type} (e : Except String α) : Bool :=
  match e with
  | .error _ => true
  | .ok _ => false

/-! ## Constructor validation (solver_abstract.py lines 26-135, solver.py lines 27-135) -/

/-- The grid state the constructor computes after its validation checks. -/
structure InitState where
  n_vehicles : ℕ
  x_min : ℚ
  x_max : ℚ
  y_min : ℚ
  y_max : ℚ
deriving Repr

/-- Embedding of `SolverAbstract.__init__` = `Solver.__init__`: the vehicle
location array has shape `(nRows, nCols)` with entries `entry`; the three
explicit `raise ValueError` checks run in source order, then the bounding
box is computed with `np.min`/`np.max` over the two coordinate columns,
which raise `ValueError` themselves on a zero-row array. -/
def solverInit (nRows nCols : ℕ) (entry : ℕ → ℕ → ℚ) (service_level : ℚ) :
    Except String InitState :=
  if nRows = 1 then Except.error "Please add more than one vehicle location."
  else if nCols ≠ 2 then Except.error "Please add two dimensional vehicle locations."
  else if service_level ≤ 0 ∨ 1 < service_level then
    Except.error "Service level should be within (0,1]."
  else
    let col0 := (List.range nRows).map (fun i => entry i 0)
    let col1 := (List.range nRows).map (fun i => entry i 1)
    match npMin col0, npMax col0, npMin col1, npMax col1 with
    | .ok xmin, .ok xmax, .ok ymin, .ok ymax =>
        Except.ok ⟨nRows, xmin, xmax, ymin, ymax⟩
    | .error e, _, _, _ => Except.error e
    | _, .error e, _, _ => Except.error e
    | _, _, .error e, _ => Except.error e
    | _, _, _, .error e => Except.error e

/-! ## Samples and maximum matching (feasibility pre-check) -/

/-- Per-sample reachability data as the constraint-building and pre-check
code uses it.  `sample.py` is not among the two source files; from the spec,
a sample holds a stable `index` (its position in `self.S`, used by `str(s)`
in constraint names), a vehicle count and a boolean reachability matrix. -/
structure SampleCt where
  index : ℕ
  nVehicles : ℕ
  reach : ℕ → ℕ → Bool

/-- Modelled from the spec: `compute_maximum_matching` lives in
`ev_station_solver/helper_functions.py`, which is not among the two source
files.  The spec describes it as solving "a bipartite maximum-matching/flow
problem over the reachability graph with per-location capacity, returning
the best fraction of points that could possibly be served".  A candidate
allocation assigns each vehicle to at most one reachable location with at
most `cap j` vehicles per location `j`. -/
def validAllocation (nv nl : ℕ) (reachable : ℕ → ℕ → Bool) (cap : ℕ → ℕ)
    (f : Fin nv → Option (Fin nl)) : Prop :=
  (∀ i : Fin nv, ∀ j : Fin nl, f i = some j → reachable i.val j.val = true) ∧
  (∀ j : Fin nl, (Finset.univ.filter (fun i => f i = some j)).card ≤ cap j.val)

instance validAllocationDec (nv nl : ℕ) (reachable : ℕ → ℕ → Bool) (cap : ℕ → ℕ) :
    DecidablePred (validAllocation nv nl reachable cap) := fun f => by
  unfold validAllocation
  infer_instance

/-- Number of vehicles an allocation serves. -/
def matchedCount (nv nl : ℕ) (f : Fin nv → Option (Fin nl)) : ℕ :=
  (Finset.univ.filter (fun i => (f i).isSome)).card

/-- Modelled from the spec (see `validAllocation`): the best fraction of
vehicles that could possibly be served, i.e. the size of a capacity-bounded
maximum matching of the reachability graph divided by the vehicle count. -/
def compute_maximum_matching (nv nl : ℕ) (reachable : ℕ → ℕ → Bool) (cap : ℕ → ℕ) : ℚ :=
  (((Finset.univ.filter (validAllocation nv nl reachable cap)).sup
      (matchedCount nv nl) : ℕ) : ℚ) / (nv : ℚ)

/-- The two abort conditions checked at the top of `Solver.solve`. -/
inductive SolveAbort
  | fixedTooLarge
  | serviceUnreachable
deriving DecidableEq, Repr

/-- Embedding of the pre-checks at the top of `Solver.solve` (solver.py
lines 655-673), the portion that runs before `initialize_model` and the
first full `m.solve` call: the fixed-station sanity check, then the
per-sample maximum achievable service levels with the hardcoded capacity
vector `np.repeat(8, n_potential_cl)`; if their minimum is below the target
service level a `ValueError` ("Service level cannot be reached ...") is
raised.  A `.ok` result is exactly the states in which the source goes on
to build and solve the MILP. -/
def solvePrecheck (fixed_station_number : Option ℕ) (nPotentialCl : ℕ)
    (samples : List SampleCt) (service_level : ℚ) : Except SolveAbort Unit :=
  if fixed_station_number.elim false (fun f => decide (nPotentialCl < f)) then
    Except.error SolveAbort.fixedTooLarge
  else if listMin (samples.map (fun s =>
      compute_maximum_matching s.nVehicles nPotentialCl s.reach (fun _ => 8))) < service_level then
    Except.error SolveAbort.serviceUnreachable
  else Except.ok ()

/-! ## Proximity filter (solver_abstract.py lines 443-489, solver.py lines 395-432) -/

/-- Inputs of `filter_locations`.  Coordinates enter through their distance
matrices — `get_distance_matrix` is in `helper_functions.py`, outside the
two source files: `distCl i c` is the Euclidean distance of proposed
position `i` to existing candidate `c`, and `distVeh i t` its distance to
vehicle `t`.  `p` proposed positions, `nCl` existing candidates, `nVeh`
vehicles. -/
structure FilterInput where
  p : ℕ
  nCl : ℕ
  nVeh : ℕ
  distCl : ℕ → ℕ → ℚ
  distVeh : ℕ → ℕ → ℚ

/-- The parameters of `filter_locations`: `min_distance` and
`counting_radius` are arguments, `mu_charging` comes from `CONSTANTS`
(`constants.py`, not among the two source files) and `station_ub` from the
solver state. -/
structure FilterParams where
  min_distance : ℚ
  counting_radius : ℚ
  mu_charging : ℚ
  station_ub : ℕ

/-- Row minimum `get_distance_matrix(improved, coordinates_potential_cl).min(axis=1)`. -/
def minDistToCl (inp : FilterInput) (i : ℕ) : ℚ :=
  listMin ((List.range inp.nCl).map (inp.distCl i))

/-- The initial `build_mask` entry: `distances > min_distance`. -/
def isFar (inp : FilterInput) (pr : FilterParams) (i : ℕ) : Bool :=
  decide (pr.min_distance < minDistToCl inp i)

/-- The `too_close` index list `np.argwhere(~build_mask).flatten()`. -/
def tooClose (inp : FilterInput) (pr : FilterParams) : List ℕ :=
  (List.range inp.p).filter (fun i => !(isFar inp pr i))

/-- Count of `distances_vehicles < counting_radius` entries in row `i`. -/
def numVehInRadius (inp : FilterInput) (pr : FilterParams) (i : ℕ) : ℕ :=
  ((List.range inp.nVeh).filter (fun t => decide (inp.distVeh i t < pr.counting_radius))).length

/-- The numerator `number_vehicles_in_radius[i]`: vehicle count in radius
times the expected charging probability `mu_charging`. -/
def expectedServed (inp : FilterInput) (pr : FilterParams) (i : ℕ) : ℚ :=
  (numVehInRadius inp pr i : ℚ) * pr.mu_charging

/-- Count of `distances_chargers < counting_radius` entries in row `i`. -/
def numClInRadius (inp : FilterInput) (pr : FilterParams) (i : ℕ) : ℕ :=
  ((List.range inp.nCl).filter (fun c => decide (inp.distCl i c < pr.counting_radius))).length

/-- The denominator `number_locations_radius[i]`: candidate count in radius
times `2 * station_ub`. -/
def capacityInRadius (inp : FilterInput) (pr : FilterParams) (i : ℕ) : ℚ :=
  (numClInRadius inp pr i : ℚ) * 2 * (pr.station_ub : ℚ)

/-- The acceptance probability `prob[i]`: `1` when the denominator is zero,
otherwise the unclamped ratio. -/
def acceptProb (inp : FilterInput) (pr : FilterParams) (i : ℕ) : ℚ :=
  if capacityInRadius inp pr i = 0 then 1
  else expectedServed inp pr i / capacityInRadius inp pr i

/-- Position of a too-close proposal `i` within `too_close`, i.e. which of
the `np.random.uniform(size=len(too_close))` variates it consumes. -/
def tooCloseRank (inp : FilterInput) (pr : FilterParams) (i : ℕ) : ℕ :=
  ((List.range i).filter (fun j => !(isFar inp pr j))).length

/-- The final `build_mask` entry for proposal `i`:
`build_mask[too_close] = np.random.uniform(size=len(too_close)) < prob`.
`draws` is the stream of uniform variates of the module-level
`np.random` generator, consumed by the too-close proposals in order. -/
def acceptMask (inp : FilterInput) (pr : FilterParams) (draws : ℕ → ℚ) (i : ℕ) : Bool :=
  if isFar inp pr i then true
  else decide (draws (tooCloseRank inp pr i) < acceptProb inp pr i)

/-- Embedding of `SolverAbstract.filter_locations` =
`Solver.filter_locations`: returns the accepted proposal indices (standing
for `improved_locations[build_mask]`) and the corresponding entries of
`old_location_indices`.  When no proposal is too close the inputs are
returned unchanged. -/
def filter_locations (inp : FilterInput) (pr : FilterParams) (draws : ℕ → ℚ)
    (old_location_indices : List ℕ) : List ℕ × List ℕ :=
  if tooClose inp pr = [] then (List.range inp.p, old_location_indices)
  else
    let accepted := (List.range inp.p).filter (acceptMask inp pr draws)
    (accepted, accepted.map (fun i => old_location_indices.getD i 0))

/-! ## Outer-loop termination (solver.py lines 707-848, solver_abstract.py lines 542-556) -/

/-- The CPLEX statuses the solve loop branches on. -/
inductive SolveStatus
  | solutionLimitExceeded
  | integerInfeasible
  | timeLimitExceeded
  | integerOptimalTolerance
  | other
deriving DecidableEq, Repr

/-- The three ways an outer iteration can end. -/
inductive IterOutcome
  | abortInfeasible
  | stop
  | next
deriving DecidableEq, Repr

/-- Embedding of `SolverAbstract.check_stable` = `Solver.check_stable`:
compares the last recorded solved objective (`objective_values[-1]`, resp.
`solutions[-1].kpis["total_cost"]`) against the warm start's `total_cost`
KPI value. -/
def check_stable (objective_values : List ℚ) (objective_warmstart : ℚ) (epsilon : ℚ) : Bool :=
  if |(objective_values.getLast?.getD 0) - objective_warmstart| ≤ epsilon then true
  else false

/-- Embedding of the decision structure of one outer iteration of
`Solver.solve` (lines 707-848): the inner solve loop exits with `status`
(raising on `integer infeasible`, line 740); the solved objective is
appended to `objective_values` (line 763); after improvement and filtering,
`v = len(filtered_improved_locations)`: if zero, break (lines 786-789);
otherwise, after the model update and warm start construction, break when
`check_stable` holds (lines 844-848), else run a further iteration. -/
def outerIteration (status : SolveStatus) (prevObjectiveValues : List ℚ)
    (solvedObjective : ℚ) (nAccepted : ℕ) (objective_warmstart epsilon : ℚ) : IterOutcome :=
  if status = SolveStatus.integerInfeasible then IterOutcome.abortInfeasible
  else if nAccepted = 0 then IterOutcome.stop
  else if check_stable (prevObjectiveValues ++ [solvedObjective]) objective_warmstart epsilon then
    IterOutcome.stop
  else IterOutcome.next

/-! ## Warm start construction (solver_abstract.py lines 576-737, solver.py lines 531-592) -/

/-- Pointwise update of a one-dimensional numpy array embedded as a function. -/
def upd1 (f : ℕ → ℚ) (j : ℕ) (x : ℚ) : ℕ → ℚ :=
  fun j2 => if j2 = j then x else f j2

/-- Pointwise update of a two-dimensional numpy array embedded as a function. -/
def upd2 (f : ℕ → ℕ → ℚ) (i j : ℕ) (x : ℚ) : ℕ → ℕ → ℚ :=
  fun i2 j2 => if i2 = i ∧ j2 = j then x else f i2 j2

/-- Sequential `arr[idxs] = 0` on a one-dimensional array. -/
def zeroAt (f : ℕ → ℚ) (idxs : List ℕ) : ℕ → ℚ :=
  idxs.foldl (fun g j => upd1 g j 0) f

/-- Embedding of `SolverAbstract.create_mip_arrays` (lines 624-645): the
previous solution vectors are extended with zeros for the new locations,
`np.concatenate((sol, np.zeros(n_new)))`; every entry at index `≥ nOld` is
an appended zero. -/
def create_mip_arrays (nOld : ℕ) (v_sol w_sol : ℕ → ℚ) (u_sol : ℕ → ℕ → ℕ → ℚ) :
    (ℕ → ℚ) × (ℕ → ℚ) × (ℕ → ℕ → ℕ → ℚ) :=
  (fun j => if j < nOld then v_sol j else 0,
   fun j => if j < nOld then w_sol j else 0,
   fun s i j => if j < nOld then u_sol s i j else 0)

/-- One body of the vehicle loop in `set_mip_array_new_locations` (lines
679-684): if vehicle `i` was allocated to old location `oldj`
(`u_sol[i, oldj] == 1`), zero the old cell and set the new cell
`(i, nOld + k)` to 1. -/
def remapRow (nOld k oldj : ℕ) (uSolS : ℕ → ℕ → ℚ) (u2 : ℕ → ℕ → ℚ) (i : ℕ) : ℕ → ℕ → ℚ :=
  if uSolS i oldj = 1 then upd2 (upd2 u2 i oldj 0) i (nOld + k) 1 else u2

/-- The vehicle loop for one `(k, j)` pair: `np.argwhere(u_sol[:, j] == 1)`
is embedded as iterating all row indices `i < nVeh` and testing the cell. -/
def remapPass (nOld nVeh k oldj : ℕ) (uSolS u : ℕ → ℕ → ℚ) : ℕ → ℕ → ℚ :=
  (List.range nVeh).foldl (remapRow nOld k oldj uSolS) u

/-- The `for k, j in enumerate(old_potential_cl_indices)` loop of
`set_mip_array_new_locations` for one sample. -/
def remapUSample (nOld nVeh : ℕ) (oldIdx : List ℕ) (uSolS uStartS : ℕ → ℕ → ℚ) : ℕ → ℕ → ℚ :=
  (List.range oldIdx.length).foldl
    (fun u k => remapPass nOld nVeh k (oldIdx.getD k 0) uSolS u) uStartS

/-- Embedding of `SolverAbstract.set_mip_array_new_locations` (lines
647-685) = the middle of `Solver.construct_mip_start` (lines 549-563), with
`K = range(nOld, nOld + len(oldIdx))`: `v_start[K] = 1`,
`w_start[K] = w_sol[old_potential_cl_indices]`, old locations zeroed, and
the per-sample allocation remap. -/
def set_mip_array_new_locations (nOld nS : ℕ) (nVeh : ℕ → ℕ)
    (v_start w_start : ℕ → ℚ) (u_start : ℕ → ℕ → ℕ → ℚ)
    (w_sol : ℕ → ℚ) (u_sol : ℕ → ℕ → ℕ → ℚ) (oldIdx : List ℕ) :
    (ℕ → ℚ) × (ℕ → ℚ) × (ℕ → ℕ → ℕ → ℚ) :=
  let p := oldIdx.length
  let v1 : ℕ → ℚ := fun j => if nOld ≤ j ∧ j < nOld + p then 1 else v_start j
  let w1 : ℕ → ℚ := fun j =>
    if nOld ≤ j ∧ j < nOld + p then w_sol (oldIdx.getD (j - nOld) 0) else w_start j
  let v2 := zeroAt v1 oldIdx
  let w2 := zeroAt w1 oldIdx
  let u1 : ℕ → ℕ → ℕ → ℚ := fun s =>
    if s < nS then remapUSample nOld (nVeh s) oldIdx (u_sol s) (u_start s) else u_start s
  (v2, w2, u1)

/-- Embedding of `SolverAbstract.set_built_but_empty_zero` (lines 687-706):
built locations with no allocated vehicles get `v_start[i] = 0`,
`w_start[i] = 0`. -/
def set_built_but_empty_zero (v_start w_start : ℕ → ℚ) (emptyIdx : List ℕ) :
    (ℕ → ℚ) × (ℕ → ℚ) :=
  (zeroAt v_start emptyIdx, zeroAt w_start emptyIdx)

/-- Embedding of `SolverAbstract.get_mip_start` (lines 576-622) up to, but
not including, `create_mip_solution`: the warm-start arrays built for the
enlarged model from the previous solution. -/
def construct_warm_start_arrays (nOld nS : ℕ) (nVeh : ℕ → ℕ)
    (v_sol w_sol : ℕ → ℚ) (u_sol : ℕ → ℕ → ℕ → ℚ) (oldIdx emptyIdx : List ℕ) :
    (ℕ → ℚ) × (ℕ → ℚ) × (ℕ → ℕ → ℕ → ℚ) :=
  let a := create_mip_arrays nOld v_sol w_sol u_sol
  let b := set_mip_array_new_locations nOld nS nVeh a.1 a.2.1 a.2.2 w_sol u_sol oldIdx
  let c := set_built_but_empty_zero b.1 b.2.1 emptyIdx
  (c.1, c.2, b.2.2)

/-! ## Sample matrix extension (solver_abstract.py lines 558-574, solver.py lines 511-529) -/

/-- Per-sample matrix state: the fields of `Sample` (`sample.py` is not
among the two source files) that `update_distances_reachable` reads and
writes: the distance matrix, the boolean reachability matrix (both with
`nCl` columns), the per-vehicle ranges, and the vehicle count. -/
structure SampleMats where
  nVehicles : ℕ
  nCl : ℕ
  ranges : ℕ → ℚ
  distance_matrix : ℕ → ℕ → ℚ
  reachable : ℕ → ℕ → Bool

/-- Embedding of `SolverAbstract.update_distances_reachable` for one sample:
`newDist i k` is `get_distance_matrix(s.vehicle_locations,
improved_locations)[i, k]` (helper outside the two source files, its values
enter as data).  The new distance columns are appended with
`np.concatenate(..., axis=1)`; the new reachability column `k` is
`s.distance_matrix[i, nCl + k] <= s.ranges[i]` evaluated on the already
updated distance matrix; old columns are carried over unchanged. -/
def update_distances_reachable (s : SampleMats) (nNew : ℕ) (newDist : ℕ → ℕ → ℚ) : SampleMats :=
  let dist2 : ℕ → ℕ → ℚ :=
    fun i k => if k < s.nCl then s.distance_matrix i k else newDist i (k - s.nCl)
  { nVehicles := s.nVehicles
    nCl := s.nCl + nNew
    ranges := s.ranges
    distance_matrix := dist2
    reachable := fun i k =>
      if k < s.nCl then s.reachable i k else decide (dist2 i k ≤ s.ranges i) }

/-! ## The docplex model as a list of named linear constraints
(solver_abstract.py lines 252-362, solver.py lines 270-361) -/

/-- The decision variables: `v_k` (built), `w_k` (charger count),
`u_{s,i,k}` (allocation of vehicle `i` of sample `s` to location `k`,
materialized only for reachable pairs). -/
inductive CVar
  | v (k : ℕ)
  | w (k : ℕ)
  | u (s i k : ℕ)
deriving DecidableEq, Repr

/-- Structured embedding of the f-string constraint names
(`"fixed_station_number"`, `f"service_level_{s}"`,
`f"charger_allocation_{s}_{i}"`, `f"number_w_{k}"`, `f"number_v_{k}"`,
`f"allocation_qw_{s}_{k}"`), with `str(sample)` rendered as the sample's
stable index. -/
inductive CName
  | fixedStationNumber
  | serviceLevel (s : ℕ)
  | chargerAllocation (s i : ℕ)
  | numberW (k : ℕ)
  | numberV (k : ℕ)
  | allocationQW (s k : ℕ)
deriving DecidableEq, Repr

/-- One summand of a docplex linear expression. -/
structure LinTerm where
  coef : ℚ
  var : CVar
deriving DecidableEq, Repr

/-- A docplex linear expression: a term list plus a constant. -/
structure LinExpr where
  terms : List LinTerm
  const : ℚ
deriving DecidableEq, Repr

/-- Constraint sense. -/
inductive CSense
  | le
  | ge
  | eq
deriving DecidableEq, Repr

/-- A named docplex linear constraint. -/
structure Constraint where
  name : CName
  lhs : LinExpr
  sense : CSense
  rhs : LinExpr
deriving DecidableEq, Repr

/-- The docplex model's constraint list (`cts_by_name=True` additionally
keeps a by-name lookup; adding never removes earlier constraints). -/
abbrev ModelCts := List Constraint

/-- A pure sum-of-terms expression. -/
def exprOf (ts : List LinTerm) : LinExpr := ⟨ts, 0⟩

/-- A constant expression. -/
def constExpr (c : ℚ) : LinExpr := ⟨[], c⟩

/-- `m.sum(v[k] for k in K)`. -/
def vTerms (K : List ℕ) : List LinTerm := K.map (fun k => ⟨1, CVar.v k⟩)

/-- `m.sum(u[s][i, k] for i in s.I for k in K if s.reachable[i, k])`. -/
def serviceTerms (s : SampleCt) (K : List ℕ) : List LinTerm :=
  (List.range s.nVehicles).flatMap
    (fun i => (K.filter (fun k => s.reach i k)).map (fun k => ⟨1, CVar.u s.index i k⟩))

/-- `m.sum(u[s][i, k] for k in K if s.reachable[i, k])` for one vehicle. -/
def allocTerms (s : SampleCt) (i : ℕ) (K : List ℕ) : List LinTerm :=
  (K.filter (fun k => s.reach i k)).map (fun k => ⟨1, CVar.u s.index i k⟩)

/-- `m.sum(u[s][i, k] for i in s.I if s.reachable[i, k])` for one location. -/
def queueTerms (s : SampleCt) (k : ℕ) : List LinTerm :=
  ((List.range s.nVehicles).filter (fun i => s.reach i k)).map
    (fun i => ⟨1, CVar.u s.index i k⟩)

/-- The constraint `w_k <= station_ub * v_k` named `number_w_k`. -/
def wLtMvCt (station_ub k : ℕ) : Constraint :=
  ⟨CName.numberW k, exprOf [⟨1, CVar.w k⟩], CSense.le, exprOf [⟨(station_ub : ℚ), CVar.v k⟩]⟩

/-- The constraint `v_k <= w_k` named `number_v_k`. -/
def vLtWCt (k : ℕ) : Constraint :=
  ⟨CName.numberV k, exprOf [⟨1, CVar.v k⟩], CSense.le, exprOf [⟨1, CVar.w k⟩]⟩

/-- The queue-cap constraint named `allocation_qw_s_k`. -/
def queueCt (s : SampleCt) (queue_size k : ℕ) : Constraint :=
  ⟨CName.allocationQW s.index k, exprOf (queueTerms s k), CSense.le,
    exprOf [⟨(queue_size : ℚ), CVar.w k⟩]⟩

/-- The freshly created service-level constraint for sample `s` over `K`. -/
def serviceCtNew (s : SampleCt) (service_level : ℚ) (K : List ℕ) : Constraint :=
  ⟨CName.serviceLevel s.index, exprOf (serviceTerms s K), CSense.ge,
    constExpr (service_level * (s.nVehicles : ℚ))⟩

/-- The freshly created at-most-one allocation constraint for `(s, i)` over `K`. -/
def allocCtNew (s : SampleCt) (i : ℕ) (K : List ℕ) : Constraint :=
  ⟨CName.chargerAllocation s.index i, exprOf (allocTerms s i K), CSense.le, constExpr 1⟩

/-- The freshly created fixed-station-number constraint over `K`. -/
def fixedCtNew (n : ℕ) (K : List ℕ) : Constraint :=
  ⟨CName.fixedStationNumber, exprOf (vTerms K), CSense.eq, constExpr (n : ℚ)⟩

/-- `m.get_constraint_by_name`. -/
def findCt (cts : ModelCts) (n : CName) : Option Constraint :=
  cts.find? (fun c => c.name == n)

/-- `constraint.left_expr.add(extra)`: the in-place algebraic extension of a
constraint's left-hand sum. -/
def extendCt (c : Constraint) (extra : List LinTerm) : Constraint :=
  { c with lhs := ⟨c.lhs.terms ++ extra, c.lhs.const⟩ }

/-- In-place extension of the first constraint with the given name (the one
`get_constraint_by_name` returns). -/
def extendFirst (cts : ModelCts) (n : CName) (extra : List LinTerm) : ModelCts :=
  match cts with
  | [] => []
  | c :: rest =>
      if c.name = n then extendCt c extra :: rest
      else c :: extendFirst rest n extra

/-- Embedding of `SolverAbstract.update_fixed_station_number_constraint`
(lines 270-286): fetch by name; extend the left-hand sum if present,
otherwise add the constraint. -/
def update_fixed_station_number_constraint (fixed_station_number : ℕ) (K : List ℕ)
    (cts : ModelCts) : ModelCts :=
  match findCt cts CName.fixedStationNumber with
  | none => cts ++ [fixedCtNew fixed_station_number K]
  | some _ => extendFirst cts CName.fixedStationNumber (vTerms K)

/-- Embedding of `SolverAbstract.add_w_lt_mv_constraints` (lines 288-298):
append one new constraint instance per `k ∈ K`. -/
def add_w_lt_mv_constraints (station_ub : ℕ) (K : List ℕ) (cts : ModelCts) : ModelCts :=
  cts ++ K.map (wLtMvCt station_ub)

/-- Embedding of `SolverAbstract.add_v_lt_w_constraints` (lines 300-307). -/
def add_v_lt_w_constraints (K : List ℕ) (cts : ModelCts) : ModelCts :=
  cts ++ K.map vLtWCt

/-- Embedding of `SolverAbstract.add_max_queue_constraints` (lines 309-322). -/
def add_max_queue_constraints (s : SampleCt) (queue_size : ℕ) (K : List ℕ)
    (cts : ModelCts) : ModelCts :=
  cts ++ K.map (queueCt s queue_size)

/-- Embedding of `SolverAbstract.update_service_constraint` (lines
324-342): fetch `f"service_level_{s}"`; extend its left-hand sum with the
`K` terms if it exists, otherwise add it. -/
def update_service_constraint (s : SampleCt) (service_level : ℚ) (K : List ℕ)
    (cts : ModelCts) : ModelCts :=
  match findCt cts (CName.serviceLevel s.index) with
  | none => cts ++ [serviceCtNew s service_level K]
  | some _ => extendFirst cts (CName.serviceLevel s.index) (serviceTerms s K)

/-- The `for i in s.I` body of `update_allocation_constraints`, recursing
over the vehicle index list. -/
def update_allocation_constraints_aux (s : SampleCt) (K : List ℕ) :
    List ℕ → ModelCts → ModelCts
  | [], cts => cts
  | i :: rest, cts =>
      update_allocation_constraints_aux s K rest
        (match findCt cts (CName.chargerAllocation s.index i) with
         | none => cts ++ [allocCtNew s i K]
         | some _ => extendFirst cts (CName.chargerAllocation s.index i) (allocTerms s i K))

/-- Embedding of `SolverAbstract.update_allocation_constraints` (lines
344-362): per vehicle, fetch `f"charger_allocation_{s}_{i}"`; extend its
left-hand sum if it exists, otherwise add it. -/
def update_allocation_constraints (s : SampleCt) (K : List ℕ) (cts : ModelCts) : ModelCts :=
  update_allocation_constraints_aux s K (List.range s.nVehicles) cts

/-- The `for s in self.S` tail of `update_constraints` (lines 265-268). -/
def sample_phase (service_level : ℚ) (queue_size : ℕ) (K : List ℕ) :
    List SampleCt → ModelCts → ModelCts
  | [], cts => cts
  | s :: rest, cts =>
      sample_phase service_level queue_size K rest
        (update_allocation_constraints s K
          (update_service_constraint s service_level K
            (add_max_queue_constraints s queue_size K cts)))

/-- Embedding of `SolverAbstract.update_constraints` (lines 252-268). -/
def update_constraints (fixed_station_number : Option ℕ) (station_ub queue_size : ℕ)
    (service_level : ℚ) (samples : List SampleCt) (K : List ℕ) (cts : ModelCts) : ModelCts :=
  let cts1 := match fixed_station_number with
    | some n => update_fixed_station_number_constraint n K cts
    | none => cts
  let cts2 := add_w_lt_mv_constraints station_ub K cts1
  let cts3 := add_v_lt_w_constraints K cts2
  sample_phase service_level queue_size K samples cts3

/-- Value of a linear expression under an assignment of the decision
variables. -/
def evalExpr (a : CVar → ℚ) (e : LinExpr) : ℚ :=
  e.const + (e.terms.map (fun t => t.coef * a t.var)).sum

/-- An assignment satisfies a constraint. -/
def ctHolds (a : CVar → ℚ) (c : Constraint) : Prop :=
  match c.sense with
  | CSense.le => evalExpr a c.lhs ≤ evalExpr a c.rhs
  | CSense.ge => evalExpr a c.rhs ≤ evalExpr a c.lhs
  | CSense.eq => evalExpr a c.lhs = evalExpr a c.rhs

instance ctHoldsDec (a : CVar → ℚ) (c : Constraint) : Decidable (ctHolds a c) := by
  unfold ctHolds
  rcases c.sense <;> infer_instance

/-- The constraint state after `initialize_model` (`K = J = range(n₀)`,
solver.py lines 219-232) and the subsequent per-iteration
`update_constraints` calls with `K = range(n_old, n_old + v)` (solver.py
lines 795-816): `sizes` lists the initial candidate count and then each
iteration's accepted-location count; `off` is the running candidate count. -/
def buildModelAux (fixed_station_number : Option ℕ) (station_ub queue_size : ℕ)
    (service_level : ℚ) (samples : List SampleCt) :
    List ℕ → ℕ → ModelCts → ModelCts
  | [], _, cts => cts
  | sz :: rest, off, cts =>
      buildModelAux fixed_station_number station_ub queue_size service_level samples rest
        (off + sz)
        (update_constraints fixed_station_number station_ub queue_size service_level samples
          (List.range' off sz) cts)

/-- The full constraint list the solver has posted after the block sequence
`sizes` of candidate additions. -/
def modelAfter (fixed_station_number : Option ℕ) (station_ub queue_size : ℕ)
    (service_level : ℚ) (samples : List SampleCt) (sizes : List ℕ) : ModelCts :=
  buildModelAux fixed_station_number station_ub queue_size service_level samples sizes 0 []

/-- Number of constraints carrying a given name. -/
def countName (cts : ModelCts) (n : CName) : ℕ :=
  cts.countP (fun c => c.name == n)

/-- Map-level description of what one `update_constraints` call does to the
constraints that already exist: aggregate constraints matching a sample (by
index lookup) or the fixed-count role get their left-hand sum extended with
the `K`-indexed terms; everything else is untouched. -/
def aggExtend (fixed_station_number : Option ℕ) (samples : List SampleCt) (K : List ℕ)
    (c : Constraint) : Constraint :=
  match c.name with
  | CName.fixedStationNumber =>
      if fixed_station_number.isSome then extendCt c (vTerms K) else c
  | CName.serviceLevel sIdx =>
      match samples.find? (fun s => s.index == sIdx) with
      | some s => extendCt c (serviceTerms s K)
      | none => c
  | CName.chargerAllocation sIdx i =>
      match samples.find? (fun s => s.index == sIdx) with
      | some s => if i < s.nVehicles then extendCt c (allocTerms s i K) else c
      | none => c
  | _ => c

/-- The new per-location constraint instances one `update_constraints` call
appends, in source order. -/
def appendedCts (station_ub queue_size : ℕ) (samples : List SampleCt) (K : List ℕ) : ModelCts :=
  K.map (wLtMvCt station_ub) ++ K.map vLtWCt ++
    samples.flatMap (fun s => K.map (queueCt s queue_size))

/-- Map-level description of the sample loop of `update_constraints`: the
service and allocation constraints of a listed sample get their left-hand
sums extended; everything else is untouched. -/
def sampleExtend (samples : List SampleCt) (K : List ℕ) (c : Constraint) : Constraint :=
  match c.name with
  | CName.serviceLevel sIdx =>
      match samples.find? (fun s => s.index == sIdx) with
      | some s => extendCt c (serviceTerms s K)
      | none => c
  | CName.chargerAllocation sIdx i =>
      match samples.find? (fun s => s.index == sIdx) with
      | some s => if i < s.nVehicles then extendCt c (allocTerms s i K) else c
      | none => c
  | _ => c

/-- Map-level description of the vehicle loop of
`update_allocation_constraints` over the vehicle list `iList`. -/
def allocExtendBy (s : SampleCt) (K : List ℕ) (iList : List ℕ) (c : Constraint) : Constraint :=
  match c.name with
  | CName.chargerAllocation sIdx i =>
      if sIdx = s.index ∧ i ∈ iList then extendCt c (allocTerms s i K) else c
  | _ => c

/-- The constraints the sample loop freshly creates when none of the
aggregate constraints exist yet (the first `update_constraints` call), in
source order. -/
def createdSampleCts (service_level : ℚ) (queue_size : ℕ) (K : List ℕ) :
    List SampleCt → ModelCts
  | [] => []
  | s :: rest =>
      K.map (queueCt s queue_size) ++ [serviceCtNew s service_level K] ++
        (List.range s.nVehicles).map (fun i => allocCtNew s i K) ++
        createdSampleCts service_level queue_size K rest

/-- All constraints the first `update_constraints` call creates. -/
def createdCts (fixed_station_number : Option ℕ) (station_ub queue_size : ℕ)
    (service_level : ℚ) (samples : List SampleCt) (K : List ℕ) : ModelCts :=
  (match fixed_station_number with
   | some n => [fixedCtNew n K]
   | none => []) ++
    K.map (wLtMvCt station_ub) ++ K.map vLtWCt ++
    createdSampleCts service_level queue_size K samples

/-- Invariant of the constraint state after the candidate count has reached
`n`: the aggregate constraints exist exactly once, the at-most-one
allocation constraint of every `(sample, vehicle)` pair covers exactly the
reachable locations among `range' 0 n`, and both per-location count-bound
constraints exist for every `k < n`. -/
def ModelInv (fixed_station_number : Option ℕ) (station_ub : ℕ)
    (samples : List SampleCt) (n : ℕ) (cts : ModelCts) : Prop :=
  (fixed_station_number.isSome → countName cts CName.fixedStationNumber = 1) ∧
  (∀ s ∈ samples, countName cts (CName.serviceLevel s.index) = 1) ∧
  (∀ s ∈ samples, ∀ i, i < s.nVehicles →
    countName cts (CName.chargerAllocation s.index i) = 1 ∧
    findCt cts (CName.chargerAllocation s.index i) = some (allocCtNew s i (List.range' 0 n))) ∧
  (∀ k, k < n → wLtMvCt station_ub k ∈ cts ∧ vLtWCt k ∈ cts)

/-! ## Concrete instances used by the witnesses -/

/-- A proximity-filter instance with one proposed position sitting on top
of the single existing candidate and one vehicle at the same spot. -/
def c9Input : FilterInput := ⟨1, 1, 1, fun _ _ => 0, fun _ _ => 0⟩

/-- Parameters making the acceptance probability of the too-close proposal
`(1 * (1/2)) / (1 * 2 * 1) = 1/4`. -/
def c9Params : FilterParams := ⟨1, 1, 1/2, 1⟩

/-- A proximity-filter instance with one too-close proposal and two
vehicles in the counting radius. -/
def c10Input : FilterInput := ⟨1, 1, 2, fun _ _ => 0, fun _ _ => 0⟩

/-- Parameters making the demand estimate `2 * 1 = 2` equal the capacity
estimate `1 * 2 * 1 = 2`, so the acceptance probability is exactly 1. -/
def c10Params : FilterParams := ⟨1, 1, 1, 1⟩

/-- A sample with two vehicles reaching no location at all. -/
def witNoReachSample : SampleCt := ⟨0, 2, fun _ _ => false⟩

/-- One sample with one vehicle that reaches every location. -/
def witSample : SampleCt := ⟨0, 1, fun _ _ => true⟩

/-- The constraint state after an initial block of one candidate. -/
def witCts : ModelCts := modelAfter none 2 4 (1/2) [witSample] [1]

/-- A small model state in which the aggregate constraints already exist
exactly once. -/
def witCts1 : ModelCts :=
  [⟨CName.serviceLevel 0, exprOf [], CSense.ge, constExpr 1⟩,
   ⟨CName.chargerAllocation 0 0, exprOf [], CSense.le, constExpr 1⟩]

/-- Value of the allocation entry `u[s][i, k]` under an assignment of the
decision variables: at an unreachable pair the model stores the literal
constant `0` instead of a binary variable (`add_new_dv_u_s`, line 248), so
the entry evaluates to `0` there. -/
def uVal (a : CVar → ℚ) (s : SampleCt) (i k : ℕ) : ℚ :=
  if s.reach i k then a (CVar.u s.index i k) else 0

/-- The all-ones assignment of the decision variables. -/
def c3Assign : CVar → ℚ := fun _ => 1

/-! ## Theorems -/

/-- C8: the constructor raises a `ValueError` exactly for malformed input —
fewer than two demand points (one point is caught by the explicit check,
zero points by `np.min` on the empty coordinate column), coordinates that
are not two-dimensional, or a service level outside `(0, 1]` — and raises
nothing for well-formed input. -/
theorem C8_constructor_validation (nRows nCols : ℕ) (entry : ℕ → ℕ → ℚ) (sl : ℚ) :
    isErr (solverInit nRows nCols entry sl) = true ↔
      nRows < 2 ∨ nCols ≠ 2 ∨ sl ≤ 0 ∨ 1 < sl := by
  rcases nRows with _ | _ | n
  · unfold solverInit
    rw [if_neg (by omega)]
    split_ifs with h2 h3
    · simp [isErr]
    · simp [isErr]
    · simp [List.range_zero, List.map_nil, npMin, isErr]
  · unfold solverInit
    rw [if_pos rfl]
    simp [isErr]
  · unfold solverInit
    rw [if_neg (by omega)]
    split_ifs with h2 h3
    · simp [isErr, h2]
    · simp only [isErr]
      constructor
      · intro h
        rcases h3 with h3 | h3
        · exact Or.inr (Or.inr (Or.inl h3))
        · exact Or.inr (Or.inr (Or.inr h3))
      · intro _; trivial
    · rw [List.range_succ_eq_map, List.map_cons]
      simp only [npMin, npMax, isErr]
      constructor
      · intro h; exact absurd h (by simp)
      · intro h
        rcases h with h | h | h | h
        · omega
        · exact absurd h h2
        · exact absurd (Or.inl h) h3
        · exact absurd (Or.inr h) h3

/-- C7: extending a sample with new candidate locations appends one
distance column and one reachability column per new location, the new
reachability entry being `distance ≤ range`; every entry of every existing
column is unchanged, and the column count only grows. -/
theorem C7_extend_appends_columns (s : SampleMats) (nNew : ℕ) (newDist : ℕ → ℕ → ℚ) :
    (update_distances_reachable s nNew newDist).nCl = s.nCl + nNew ∧
    s.nCl ≤ (update_distances_reachable s nNew newDist).nCl ∧
    (∀ i k, k < s.nCl →
      (update_distances_reachable s nNew newDist).distance_matrix i k = s.distance_matrix i k ∧
      (update_distances_reachable s nNew newDist).reachable i k = s.reachable i k) ∧
    (∀ i k, k < nNew →
      (update_distances_reachable s nNew newDist).distance_matrix i (s.nCl + k) = newDist i k ∧
      (update_distances_reachable s nNew newDist).reachable i (s.nCl + k) =
        decide (newDist i k ≤ s.ranges i)) := by
  refine ⟨rfl, Nat.le_add_right _ _, ?_, ?_⟩
  · intro i k hk
    constructor <;> simp [update_distances_reachable, hk]
  · intro i k _
    have h1 : ¬ s.nCl + k < s.nCl := by omega
    constructor <;> simp [update_distances_reachable, h1]

/-- C7 witness: a one-vehicle, one-column sample extended by one column at
distance 3 against range 2 yields an unreachable new column and keeps the
old one. -/
theorem C7_extend_witness :
    (0 : ℕ) < 1 ∧
    (update_distances_reachable ⟨1, 1, fun _ => 2, fun _ _ => 1, fun _ _ => true⟩ 1
        (fun _ _ => 3)).reachable 0 (1 + 0) = decide ((3 : ℚ) ≤ 2) :=
  ⟨by decide,
    ((C7_extend_appends_columns ⟨1, 1, fun _ => 2, fun _ _ => 1, fun _ _ => true⟩ 1
        (fun _ _ => 3)).2.2.2 0 0 (by decide)).2⟩

/-- C5: absent an infeasibility abort, an outer iteration is the last one
exactly when the proximity filter accepted zero new locations or the
absolute difference between the currently solved objective and the warm
start's `total_cost` KPI value is at most `epsilon`; otherwise a further
iteration is run. -/
theorem C5_outer_loop_stop (status : SolveStatus) (prevObjs : List ℚ)
    (solvedObjective : ℚ) (nAccepted : ℕ) (objective_warmstart epsilon : ℚ)
    (h : status ≠ SolveStatus.integerInfeasible) :
    (outerIteration status prevObjs solvedObjective nAccepted objective_warmstart epsilon =
        IterOutcome.stop ↔
      nAccepted = 0 ∨ |solvedObjective - objective_warmstart| ≤ epsilon) ∧
    (outerIteration status prevObjs solvedObjective nAccepted objective_warmstart epsilon =
        IterOutcome.next ↔
      ¬(nAccepted = 0 ∨ |solvedObjective - objective_warmstart| ≤ epsilon)) := by
  unfold outerIteration check_stable
  rw [if_neg h]
  have hlast : (prevObjs ++ [solvedObjective]).getLast?.getD 0 = solvedObjective := by simp
  rw [hlast]
  split_ifs with h1 h2 <;> simp_all

/-- C5 witness: with a non-infeasible exit status, five accepted locations
and a cost delta of zero against tolerance 1/10, the iteration stops. -/
theorem C5_outer_loop_witness :
    SolveStatus.timeLimitExceeded ≠ SolveStatus.integerInfeasible ∧
    (outerIteration SolveStatus.timeLimitExceeded [] 1 5 1 (1 / 10) = IterOutcome.stop ↔
      (5 : ℕ) = 0 ∨ |(1 : ℚ) - 1| ≤ 1 / 10) :=
  ⟨by decide, (C5_outer_loop_stop SolveStatus.timeLimitExceeded [] 1 5 1 (1 / 10)
      (by decide)).1⟩

/-- C4: `filter_locations` keeps exactly the proposals the final
`build_mask` accepts; a proposal whose minimum distance to the full
existing candidate set exceeds `min_distance` is accepted unconditionally;
a too-close proposal is accepted exactly when its uniform draw falls below
the acceptance probability, which is the ratio of the local demand estimate
to the local capacity estimate — and exactly 1 when that denominator is
zero, so that every draw in `[0, 1)` accepts. -/
theorem C4_filter_acceptance (inp : FilterInput) (pr : FilterParams) (draws : ℕ → ℚ)
    (oldIdx : List ℕ) :
    (filter_locations inp pr draws oldIdx).1 =
      (List.range inp.p).filter (acceptMask inp pr draws) ∧
    (∀ i, pr.min_distance < minDistToCl inp i → acceptMask inp pr draws i = true) ∧
    (∀ i, ¬ pr.min_distance < minDistToCl inp i →
      (acceptMask inp pr draws i = true ↔
        draws (tooCloseRank inp pr i) < acceptProb inp pr i) ∧
      (capacityInRadius inp pr i = 0 → acceptProb inp pr i = 1 ∧
        (draws (tooCloseRank inp pr i) < 1 → acceptMask inp pr draws i = true)) ∧
      (capacityInRadius inp pr i ≠ 0 →
        acceptProb inp pr i = expectedServed inp pr i / capacityInRadius inp pr i)) := by
  have hmask : ∀ i, ¬ pr.min_distance < minDistToCl inp i →
      acceptMask inp pr draws i =
        decide (draws (tooCloseRank inp pr i) < acceptProb inp pr i) := by
    intro i hi
    unfold acceptMask isFar
    rw [if_neg (by simpa using hi)]
  refine ⟨?_, ?_, ?_⟩
  · unfold filter_locations
    split_ifs with hempty
    · have hall : ∀ i ∈ List.range inp.p, acceptMask inp pr draws i = true := by
        intro i hi
        have hfar := List.filter_eq_nil_iff.mp hempty i hi
        unfold acceptMask
        rw [if_pos (by simpa using hfar)]
      exact (List.filter_eq_self.mpr hall).symm
    · rfl
  · intro i hi
    unfold acceptMask isFar
    rw [if_pos (by simpa using hi)]
  · intro i hi
    refine ⟨?_, ?_, ?_⟩
    · rw [hmask i hi]
      exact decide_eq_true_iff
    · intro hden
      have hprob : acceptProb inp pr i = 1 := by
        unfold acceptProb
        rw [if_pos hden]
      refine ⟨hprob, ?_⟩
      intro hdraw
      rw [hmask i hi, hprob]
      simpa using hdraw
    · intro hden
      unfold acceptProb
      rw [if_neg hden]

/-- C4 witness: in the concrete instance `c9Input`/`c9Params` the single
proposal is too close, its acceptance probability is the unclamped ratio
`1/4`, and the draw 0 accepts it. -/
theorem C4_filter_witness :
    ¬ c9Params.min_distance < minDistToCl c9Input 0 ∧
    capacityInRadius c9Input c9Params 0 ≠ 0 ∧
    acceptProb c9Input c9Params 0 = expectedServed c9Input c9Params 0 / capacityInRadius c9Input c9Params 0 :=
  ⟨by norm_num [c9Input, c9Params, minDistToCl, listMin, capacityInRadius, numClInRadius, expectedServed, numVehInRadius, acceptProb, List.range_succ], by norm_num [c9Input, c9Params, minDistToCl, listMin, capacityInRadius, numClInRadius, expectedServed, numVehInRadius, acceptProb, List.range_succ],
    (((C4_filter_acceptance c9Input c9Params (fun _ => 0) [7]).2.2 0
        (by norm_num [c9Input, c9Params, minDistToCl, listMin, capacityInRadius, numClInRadius, expectedServed, numVehInRadius, acceptProb, List.range_succ])).2.2
      (by norm_num [c9Input, c9Params, minDistToCl, listMin, capacityInRadius, numClInRadius, expectedServed, numVehInRadius, acceptProb, List.range_succ]))⟩

/-- C10: for a too-close proposal with at least one existing candidate in
the counting radius, if the demand estimate is at least the capacity
estimate then the computed acceptance probability is the unclamped ratio,
is at least 1, and every uniform draw in `[0, 1)` accepts the proposal. -/
theorem C10_probability_not_clamped (inp : FilterInput) (pr : FilterParams) (draws : ℕ → ℚ)
    (i : ℕ) (hclose : ¬ pr.min_distance < minDistToCl inp i)
    (hden : capacityInRadius inp pr i ≠ 0)
    (hge : capacityInRadius inp pr i ≤ expectedServed inp pr i) :
    acceptProb inp pr i = expectedServed inp pr i / capacityInRadius inp pr i ∧
    1 ≤ acceptProb inp pr i ∧
    (0 ≤ draws (tooCloseRank inp pr i) → draws (tooCloseRank inp pr i) < 1 →
      acceptMask inp pr draws i = true) := by
  have hpos : 0 < capacityInRadius inp pr i := by
    have h0 : (0 : ℚ) ≤ capacityInRadius inp pr i := by
      unfold capacityInRadius
      positivity
    rcases lt_or_eq_of_le h0 with h | h
    · exact h
    · exact absurd h.symm hden
  have hratio : acceptProb inp pr i = expectedServed inp pr i / capacityInRadius inp pr i := by
    unfold acceptProb
    rw [if_neg hden]
  have hone : 1 ≤ acceptProb inp pr i := by
    rw [hratio]
    rw [le_div_iff₀ hpos]
    simpa using hge
  refine ⟨hratio, hone, ?_⟩
  intro _ hdraw
  unfold acceptMask isFar
  rw [if_neg (by simpa using hclose)]
  exact decide_eq_true (lt_of_lt_of_le hdraw hone)

/-- C10 witness: demand estimate `2 * 1 = 2` against capacity estimate
`1 * 2 * 1 = 2` gives probability `1`, and the draw `9/10` accepts. -/
theorem C10_probability_witness :
    (¬ c10Params.min_distance < minDistToCl c10Input 0) ∧
    acceptMask c10Input c10Params (fun _ => 9 / 10) 0 = true :=
  ⟨by norm_num [c10Input, c10Params, minDistToCl, listMin, capacityInRadius, numClInRadius, expectedServed, numVehInRadius, List.range_succ],
    (C10_probability_not_clamped c10Input c10Params (fun _ => 9 / 10) 0 (by norm_num [c10Input, c10Params, minDistToCl, listMin, capacityInRadius, numClInRadius, expectedServed, numVehInRadius, List.range_succ])
        (by norm_num [c10Input, c10Params, minDistToCl, listMin, capacityInRadius, numClInRadius, expectedServed, numVehInRadius, List.range_succ]) (by norm_num [c10Input, c10Params, minDistToCl, listMin, capacityInRadius, numClInRadius, expectedServed, numVehInRadius, List.range_succ])).2.2 (by norm_num) (by norm_num)⟩

/-- C9 counterexample: the accept/reject draw of the proximity filter is
taken from the module-level `np.random` generator, which no part of
`filter_locations` seeds; with every explicitly passed input identical
(`c9Input`, `c9Params`, the old indices), two global-stream states give
different outputs, so outputs are not a function of the explicitly passed
inputs and seeds alone. -/
theorem C9_not_seed_deterministic :
    filter_locations c9Input c9Params (fun _ => 0) [7] ≠
      filter_locations c9Input c9Params (fun _ => 1 / 2) [7] := by
  norm_num [filter_locations, tooClose, isFar, minDistToCl, listMin, c9Input, c9Params, List.range_succ, acceptMask, tooCloseRank, acceptProb, capacityInRadius, numClInRadius, expectedServed, numVehInRadius]

/-- C9 amended: initial candidate seeding is driven by the explicitly
passed seed (`np.random.default_rng(seed=seed)` in `add_initial_locations`),
but the proximity-filter accept draw (`np.random.uniform`, solver_abstract.py
line 487) and the stall perturbation (`np.random.normal`, line 527) read the
unseeded global numpy generator, so identical inputs and seed sequence
reproduce outputs only when the global stream also coincides: with global
draw 0 the too-close proposal of `c9Input` is accepted, with 1/2 rejected. -/
theorem C9_global_stream_dependence :
    filter_locations c9Input c9Params (fun _ => 0) [7] = ([0], [7]) ∧
    filter_locations c9Input c9Params (fun _ => 1 / 2) [7] = ([], []) := by
  constructor <;>
  norm_num [filter_locations, tooClose, isFar, minDistToCl, listMin, c9Input, c9Params, List.range_succ, acceptMask, tooCloseRank, acceptProb, capacityInRadius, numClInRadius, expectedServed, numVehInRadius]

theorem foldl_min_lt_iff (t : List ℚ) (a x : ℚ) :
    t.foldl min a < x ↔ a < x ∨ ∃ b ∈ t, b < x := by
  induction t generalizing a with
  | nil => simp
  | cons b t2 ih =>
      rw [List.foldl_cons, ih (min a b)]
      simp only [min_lt_iff, List.mem_cons]
      constructor
      · rintro ((h | h) | ⟨c, hc, hcx⟩)
        · exact Or.inl h
        · exact Or.inr ⟨b, Or.inl rfl, h⟩
        · exact Or.inr ⟨c, Or.inr hc, hcx⟩
      · rintro (h | ⟨c, (rfl | hc), hcx⟩)
        · exact Or.inl (Or.inl h)
        · exact Or.inl (Or.inr hcx)
        · exact Or.inr ⟨c, hc, hcx⟩

theorem listMin_lt_iff (l : List ℚ) (hne : l ≠ []) (x : ℚ) :
    listMin l < x ↔ ∃ a ∈ l, a < x := by
  rcases l with _ | ⟨a, t⟩
  · exact absurd rfl hne
  · unfold listMin
    rw [foldl_min_lt_iff]
    simp

theorem maximum_matching_zero_of_no_reach (nv nl : ℕ) (reachable : ℕ → ℕ → Bool)
    (cap : ℕ → ℕ) (h : ∀ i k, reachable i k = false) :
    compute_maximum_matching nv nl reachable cap = 0 := by
  unfold compute_maximum_matching
  have hsup : (Finset.univ.filter (validAllocation nv nl reachable cap)).sup
      (matchedCount nv nl) = 0 := by
    apply Nat.le_antisymm _ (Nat.zero_le _)
    apply Finset.sup_le
    intro f hf
    have hva := (Finset.mem_filter.mp hf).2
    have hnone : ∀ i, f i = none := by
      intro i
      rcases hfi : f i with _ | j
      · rfl
      · have := hva.1 i j hfi
        rw [h i.val j.val] at this
        exact absurd this (by simp)
    have : matchedCount nv nl f = 0 := by
      unfold matchedCount
      have : (Finset.univ.filter (fun i => (f i).isSome)) = ∅ := by
        apply Finset.filter_eq_empty_iff.mpr
        intro i _
        simp [hnone i]
      rw [this, Finset.card_empty]
    rw [this]
  rw [hsup]
  simp

/-- C2: if the fixed-station sanity check passes and some sample's maximum
achievable service level — a capacity-bounded maximum matching over its
reachability matrix — is strictly below the target, `solve` raises the
infeasibility error before any full MILP solve is attempted; in particular,
with no reachable candidate at all the maximum achievable level is 0 and
the error fires for every positive target. -/
theorem C2_precheck_infeasible (fixedN : Option ℕ) (nCl : ℕ) (samples : List SampleCt)
    (sl : ℚ) (hfix : ∀ f, fixedN = some f → f ≤ nCl) (hne : samples ≠ []) :
    ((∃ s ∈ samples,
        compute_maximum_matching s.nVehicles nCl s.reach (fun _ => 8) < sl) →
      solvePrecheck fixedN nCl samples sl = Except.error SolveAbort.serviceUnreachable) ∧
    ((∀ s ∈ samples, ∀ i k, s.reach i k = false) →
      (∀ s ∈ samples, compute_maximum_matching s.nVehicles nCl s.reach (fun _ => 8) = 0) ∧
      (0 < sl →
        solvePrecheck fixedN nCl samples sl = Except.error SolveAbort.serviceUnreachable)) := by
  have hfixed : fixedN.elim false (fun f => decide (nCl < f)) = false := by
    rcases fixedN with _ | f
    · rfl
    · have := hfix f rfl
      simp only [Option.elim]
      exact decide_eq_false (by omega)
  have hmain : ∀ s ∈ samples,
      compute_maximum_matching s.nVehicles nCl s.reach (fun _ => 8) < sl →
      solvePrecheck fixedN nCl samples sl = Except.error SolveAbort.serviceUnreachable := by
    intro s hs hlt
    unfold solvePrecheck
    rw [hfixed]
    simp only [Bool.false_eq_true, if_false]
    rw [if_pos]
    rw [listMin_lt_iff _ (by simpa using hne)]
    exact ⟨_, List.mem_map_of_mem _ hs, hlt⟩
  constructor
  · rintro ⟨s, hs, hlt⟩
    exact hmain s hs hlt
  · intro hreach
    have hzero : ∀ s ∈ samples,
        compute_maximum_matching s.nVehicles nCl s.reach (fun _ => 8) = 0 := by
      intro s hs
      exact maximum_matching_zero_of_no_reach _ _ _ _ (hreach s hs)
    refine ⟨hzero, ?_⟩
    intro hsl
    rcases samples with _ | ⟨s, t⟩
    · exact absurd rfl hne
    · exact hmain s (by simp) (by rw [hzero s (by simp)]; exact hsl)

/-- C2 witness: two vehicles, one candidate, no reachable pair, target
service level 1: the maximum achievable level is 0 and the pre-check
aborts with the infeasibility error. -/
theorem C2_precheck_witness :
    (∀ s ∈ [witNoReachSample], compute_maximum_matching s.nVehicles 1 s.reach (fun _ => 8) = 0) ∧
    solvePrecheck none 1 [witNoReachSample] 1 = Except.error SolveAbort.serviceUnreachable := by
  have h := C2_precheck_infeasible none 1 [witNoReachSample] 1
    (fun f hf => by cases hf) (by simp)
  have h2 := h.2 (by
    intro s hs i k
    rcases List.mem_singleton.mp hs with rfl
    rfl)
  exact ⟨h2.1, h2.2 (by norm_num)⟩

theorem zeroAt_apply (idxs : List ℕ) (f : ℕ → ℚ) (j : ℕ) :
    zeroAt f idxs j = if j ∈ idxs then 0 else f j := by
  induction idxs generalizing f with
  | nil => simp [zeroAt]
  | cons a t ih =>
      show zeroAt (upd1 f a 0) t j = _
      rw [ih]
      by_cases ht : j ∈ t
      · simp [ht]
      · by_cases ha : j = a
        · simp [upd1, ha, ht]
        · simp [upd1, ha, ht]

theorem remapRow_other_row (nOld k oldj : ℕ) (uSolS u2 : ℕ → ℕ → ℚ) (i i0 j0 : ℕ)
    (h : i0 ≠ i) : remapRow nOld k oldj uSolS u2 i i0 j0 = u2 i0 j0 := by
  unfold remapRow upd2
  split_ifs <;> simp_all

theorem remapRow_other_cols (nOld k oldj : ℕ) (uSolS u2 : ℕ → ℕ → ℚ) (i i0 j0 : ℕ)
    (h1 : j0 ≠ oldj) (h2 : j0 ≠ nOld + k) :
    remapRow nOld k oldj uSolS u2 i i0 j0 = u2 i0 j0 := by
  unfold remapRow upd2
  split_ifs <;> simp_all

theorem foldl_remapRow_other_row (nOld k oldj : ℕ) (uSolS : ℕ → ℕ → ℚ) (ris : List ℕ)
    (u : ℕ → ℕ → ℚ) (i0 j0 : ℕ) (h : i0 ∉ ris) :
    ris.foldl (remapRow nOld k oldj uSolS) u i0 j0 = u i0 j0 := by
  induction ris generalizing u with
  | nil => rfl
  | cons r t ih =>
      rw [List.foldl_cons, ih _ (fun hm => h (List.mem_cons_of_mem r hm))]
      exact remapRow_other_row _ _ _ _ _ _ _ _
        (fun he => h (he ▸ List.mem_cons_self r t))

theorem foldl_remapRow_other_cols (nOld k oldj : ℕ) (uSolS : ℕ → ℕ → ℚ) (ris : List ℕ)
    (u : ℕ → ℕ → ℚ) (i0 j0 : ℕ) (h1 : j0 ≠ oldj) (h2 : j0 ≠ nOld + k) :
    ris.foldl (remapRow nOld k oldj uSolS) u i0 j0 = u i0 j0 := by
  induction ris generalizing u with
  | nil => rfl
  | cons r t ih =>
      rw [List.foldl_cons, ih (remapRow nOld k oldj uSolS u r)]
      exact remapRow_other_cols _ _ _ _ _ _ _ _ h1 h2

theorem foldl_remapRow_self (nOld k oldj : ℕ) (uSolS : ℕ → ℕ → ℚ) (ris : List ℕ)
    (hnd : ris.Nodup) (u : ℕ → ℕ → ℚ) (i0 j0 : ℕ) (hi : i0 ∈ ris) :
    ris.foldl (remapRow nOld k oldj uSolS) u i0 j0 =
      (if uSolS i0 oldj = 1 then
        (if j0 = nOld + k then 1 else if j0 = oldj then 0 else u i0 j0)
      else u i0 j0) := by
  induction ris generalizing u with
  | nil => cases hi
  | cons r t ih =>
      rw [List.foldl_cons]
      rcases List.mem_cons.mp hi with h | h
      · subst h
        have hnotin : i0 ∉ t := (List.nodup_cons.mp hnd).1
        rw [foldl_remapRow_other_row _ _ _ _ _ _ _ _ hnotin]
        unfold remapRow upd2
        split_ifs <;> simp_all
      · have hne : i0 ≠ r := by
          rintro rfl
          exact (List.nodup_cons.mp hnd).1 h
        rw [ih (List.nodup_cons.mp hnd).2 _ h,
          remapRow_other_row _ _ _ _ _ _ _ _ hne]

theorem remap_outer_frame (nOld nVeh : ℕ) (oldIdx : List ℕ) (uSolS : ℕ → ℕ → ℚ)
    (ks : List ℕ) (u : ℕ → ℕ → ℚ) (i0 j0 : ℕ)
    (hcols : ∀ k ∈ ks, j0 ≠ oldIdx.getD k 0 ∧ j0 ≠ nOld + k) :
    ks.foldl (fun u2 k => remapPass nOld nVeh k (oldIdx.getD k 0) uSolS u2) u i0 j0 =
      u i0 j0 := by
  induction ks generalizing u with
  | nil => rfl
  | cons r t ih =>
      rw [List.foldl_cons, ih _ (fun k hk => hcols k (List.mem_cons_of_mem _ hk))]
      unfold remapPass
      exact foldl_remapRow_other_cols _ _ _ _ _ _ _ _
        (hcols r (List.mem_cons_self _ _)).1 (hcols r (List.mem_cons_self _ _)).2

theorem remap_fold_newcol (nOld nVeh : ℕ) (oldIdx : List ℕ) (uSolS : ℕ → ℕ → ℚ)
    (hold : ∀ k, k < oldIdx.length → oldIdx.getD k 0 < nOld)
    (ks : List ℕ) (hnd : ks.Nodup) (hklt : ∀ k ∈ ks, k < oldIdx.length)
    (k0 : ℕ) (hk0 : k0 ∈ ks) (i0 : ℕ) (hi0 : i0 < nVeh) (u : ℕ → ℕ → ℚ) :
    ks.foldl (fun u2 k => remapPass nOld nVeh k (oldIdx.getD k 0) uSolS u2) u i0
        (nOld + k0) =
      (if uSolS i0 (oldIdx.getD k0 0) = 1 then 1 else u i0 (nOld + k0)) := by
  induction ks generalizing u with
  | nil => cases hk0
  | cons r t ih =>
      rw [List.foldl_cons]
      rcases List.mem_cons.mp hk0 with h | h
      · subst h
        rw [remap_outer_frame nOld nVeh oldIdx uSolS t _ i0 (nOld + k0) ?frame]
        case frame =>
          intro k hk
          have hk2 := hklt k (List.mem_cons_of_mem _ hk)
          have hkne : k ≠ k0 := by
            rintro rfl
            exact (List.nodup_cons.mp hnd).1 hk
          have := hold k hk2
          exact ⟨by omega, by omega⟩
        unfold remapPass
        rw [foldl_remapRow_self _ _ _ _ _ (List.nodup_range _) _ _ _ (List.mem_range.mpr hi0)]
        have h1 : nOld + k0 ≠ oldIdx.getD k0 0 := by
          have := hold k0 (hklt k0 (List.mem_cons_self _ _))
          omega
        split_ifs with hu <;> simp_all
      · have hr : r ≠ k0 := by
          rintro rfl
          exact (List.nodup_cons.mp hnd).1 h
        rw [ih (List.nodup_cons.mp hnd).2 (fun k hk => hklt k (List.mem_cons_of_mem _ hk)) h]
        have hframe : remapPass nOld nVeh r (oldIdx.getD r 0) uSolS u i0 (nOld + k0) =
            u i0 (nOld + k0) := by
          unfold remapPass
          refine foldl_remapRow_other_cols _ _ _ _ _ _ _ _ ?_ ?_
          · have := hold r (hklt r (List.mem_cons_self _ _))
            omega
          · omega
        rw [hframe]

theorem remap_fold_oldcol (nOld nVeh : ℕ) (oldIdx : List ℕ) (uSolS : ℕ → ℕ → ℚ)
    (hold : ∀ k, k < oldIdx.length → oldIdx.getD k 0 < nOld)
    (hinj : ∀ k1 k2, k1 < oldIdx.length → k2 < oldIdx.length →
      oldIdx.getD k1 0 = oldIdx.getD k2 0 → k1 = k2)
    (ks : List ℕ) (hnd : ks.Nodup) (hklt : ∀ k ∈ ks, k < oldIdx.length)
    (k0 : ℕ) (hk0 : k0 ∈ ks) (i0 : ℕ) (hi0 : i0 < nVeh) (u : ℕ → ℕ → ℚ) :
    ks.foldl (fun u2 k => remapPass nOld nVeh k (oldIdx.getD k 0) uSolS u2) u i0
        (oldIdx.getD k0 0) =
      (if uSolS i0 (oldIdx.getD k0 0) = 1 then 0 else u i0 (oldIdx.getD k0 0)) := by
  induction ks generalizing u with
  | nil => cases hk0
  | cons r t ih =>
      rw [List.foldl_cons]
      rcases List.mem_cons.mp hk0 with h | h
      · subst h
        rw [remap_outer_frame nOld nVeh oldIdx uSolS t _ i0 (oldIdx.getD k0 0) ?frame]
        case frame =>
          intro k hk
          have hk2 := hklt k (List.mem_cons_of_mem _ hk)
          have hkne : k ≠ k0 := by
            rintro rfl
            exact (List.nodup_cons.mp hnd).1 hk
          constructor
          · intro he
            exact hkne (hinj k k0 hk2 (hklt k0 (List.mem_cons_self _ _)) he.symm)
          · have := hold k0 (hklt k0 (List.mem_cons_self _ _))
            omega
        unfold remapPass
        rw [foldl_remapRow_self _ _ _ _ _ (List.nodup_range _) _ _ _ (List.mem_range.mpr hi0)]
        have h1 : oldIdx.getD k0 0 ≠ nOld + k0 := by
          have := hold k0 (hklt k0 (List.mem_cons_self _ _))
          omega
        split_ifs with hu <;> simp_all
      · have hr : r ≠ k0 := by
          rintro rfl
          exact (List.nodup_cons.mp hnd).1 h
        rw [ih (List.nodup_cons.mp hnd).2 (fun k hk => hklt k (List.mem_cons_of_mem _ hk)) h]
        have hframe : remapPass nOld nVeh r (oldIdx.getD r 0) uSolS u i0 (oldIdx.getD k0 0) =
            u i0 (oldIdx.getD k0 0) := by
          unfold remapPass
          refine foldl_remapRow_other_cols _ _ _ _ _ _ _ _ ?_ ?_
          · intro he
            exact hr (hinj r k0 (hklt r (List.mem_cons_self _ _))
              (hklt k0 (List.mem_cons_of_mem _ h)) he.symm)
          · have := hold k0 (hklt k0 (List.mem_cons_of_mem _ h))
            omega
        rw [hframe]

/-- C6: in the warm start for the enlarged model, the k-th accepted refined
location (new index `nOld + k`) receives `built = 1`, the `count` value of
the old location it replaces, and, in every sample, the allocation of every
vehicle that was allocated to the old location; the replaced old location's
built, count and allocation entries are zeroed, and the built-but-empty
locations are likewise zeroed. -/
theorem C6_warm_start_inheritance (nOld nS : ℕ) (nVeh : ℕ → ℕ)
    (v_sol w_sol : ℕ → ℚ) (u_sol : ℕ → ℕ → ℕ → ℚ) (oldIdx emptyIdx : List ℕ)
    (hOldLt : ∀ j ∈ oldIdx, j < nOld)
    (hOldNd : oldIdx.Nodup)
    (hEmptyLt : ∀ j ∈ emptyIdx, j < nOld)
    (hu01 : ∀ s i j, u_sol s i j = 0 ∨ u_sol s i j = 1) :
    (∀ k, k < oldIdx.length →
      (construct_warm_start_arrays nOld nS nVeh v_sol w_sol u_sol oldIdx emptyIdx).1
          (nOld + k) = 1 ∧
      (construct_warm_start_arrays nOld nS nVeh v_sol w_sol u_sol oldIdx emptyIdx).2.1
          (nOld + k) = w_sol (oldIdx.getD k 0) ∧
      (construct_warm_start_arrays nOld nS nVeh v_sol w_sol u_sol oldIdx emptyIdx).1
          (oldIdx.getD k 0) = 0 ∧
      (construct_warm_start_arrays nOld nS nVeh v_sol w_sol u_sol oldIdx emptyIdx).2.1
          (oldIdx.getD k 0) = 0 ∧
      (∀ s, s < nS → ∀ i, i < nVeh s →
        (construct_warm_start_arrays nOld nS nVeh v_sol w_sol u_sol oldIdx emptyIdx).2.2 s i
            (nOld + k) = (if u_sol s i (oldIdx.getD k 0) = 1 then 1 else 0) ∧
        (construct_warm_start_arrays nOld nS nVeh v_sol w_sol u_sol oldIdx emptyIdx).2.2 s i
            (oldIdx.getD k 0) = 0)) ∧
    (∀ j ∈ emptyIdx,
      (construct_warm_start_arrays nOld nS nVeh v_sol w_sol u_sol oldIdx emptyIdx).1 j = 0 ∧
      (construct_warm_start_arrays nOld nS nVeh v_sol w_sol u_sol oldIdx emptyIdx).2.1 j = 0) := by
  have hold : ∀ k, k < oldIdx.length → oldIdx.getD k 0 < nOld := by
    intro k hk
    rw [List.getD_eq_getElem _ _ hk]
    exact hOldLt _ (List.getElem_mem hk)
  have hinj : ∀ k1 k2, k1 < oldIdx.length → k2 < oldIdx.length →
      oldIdx.getD k1 0 = oldIdx.getD k2 0 → k1 = k2 := by
    intro k1 k2 h1 h2 he
    rw [List.getD_eq_getElem _ _ h1, List.getD_eq_getElem _ _ h2] at he
    exact (List.Nodup.getElem_inj_iff hOldNd).mp he
  simp only [construct_warm_start_arrays, create_mip_arrays, set_mip_array_new_locations,
    set_built_but_empty_zero]
  constructor
  · intro k hk
    have hoknew : nOld ≤ nOld + k ∧ nOld + k < nOld + oldIdx.length := by omega
    have hnewNotOld : nOld + k ∉ oldIdx := by
      intro hmem
      have := hOldLt _ hmem
      omega
    have hnewNotEmpty : nOld + k ∉ emptyIdx := by
      intro hmem
      have := hEmptyLt _ hmem
      omega
    refine ⟨?_, ?_, ?_, ?_, ?_⟩
    · rw [zeroAt_apply, if_neg hnewNotEmpty, zeroAt_apply, if_neg hnewNotOld,
        if_pos hoknew]
    · have harg : nOld + k - nOld = k := by omega
      rw [zeroAt_apply, if_neg hnewNotEmpty, zeroAt_apply, if_neg hnewNotOld,
        if_pos hoknew, harg]
    · rw [zeroAt_apply]
      split_ifs with he
      · rfl
      · rw [zeroAt_apply, if_pos]
        rw [List.getD_eq_getElem _ _ hk]
        exact List.getElem_mem hk
    · rw [zeroAt_apply]
      split_ifs with he
      · rfl
      · rw [zeroAt_apply, if_pos]
        rw [List.getD_eq_getElem _ _ hk]
        exact List.getElem_mem hk
    · intro s hs i hi
      rw [if_pos hs]
      unfold remapUSample
      constructor
      · rw [remap_fold_newcol nOld (nVeh s) oldIdx (u_sol s) hold _ (List.nodup_range _)
          (fun k2 hk2 => List.mem_range.mp hk2) k (List.mem_range.mpr hk) i hi]
        rw [if_neg (show ¬ nOld + k < nOld by omega)]
      · rw [remap_fold_oldcol nOld (nVeh s) oldIdx (u_sol s) hold hinj _ (List.nodup_range _)
          (fun k2 hk2 => List.mem_range.mp hk2) k (List.mem_range.mpr hk) i hi]
        rw [if_pos (hold k hk)]
        rcases hu01 s i (oldIdx.getD k 0) with h0 | h1
        · rw [if_neg (by rw [h0]; norm_num), h0]
        · rw [if_pos h1]
  · intro j hj
    constructor <;> rw [zeroAt_apply, if_pos hj]

/-- C6 witness: with two old locations, `oldIdx = [0]`, `emptyIdx = [1]`
and vehicle 0 allocated to location 0, the new location 2 inherits
`built = 1`, the old count 3 and the allocation, while location 0 and the
empty location 1 are zeroed. -/
theorem C6_warm_start_witness :
    (∀ j ∈ [0], j < 2) ∧
    ((construct_warm_start_arrays 2 1 (fun _ => 1) (fun _ => 1) (fun _ => 3)
        (fun _ _ j => if j = 0 then 1 else 0) [0] [1]).2.1 (2 + 0) =
      (fun _ : ℕ => (3 : ℚ)) ((List.getD [0] 0 0))) :=
  ⟨by decide,
    ((C6_warm_start_inheritance 2 1 (fun _ => 1) (fun _ => 1) (fun _ => 3)
        (fun _ _ j => if j = 0 then 1 else 0) [0] [1]
        (by decide) (by decide) (by decide)
        (fun s i j => by
          by_cases h : j = 0
          · exact Or.inr (by simp [h])
          · exact Or.inl (by simp [h]))).1 0 (by decide)).2.1⟩

theorem extendCt_name (c : Constraint) (ex : List LinTerm) : (extendCt c ex).name = c.name :=
  rfl

theorem countName_nil (n : CName) : countName [] n = 0 := rfl

theorem countName_append (l1 l2 : ModelCts) (n : CName) :
    countName (l1 ++ l2) n = countName l1 n + countName l2 n := by
  unfold countName
  exact List.countP_append _ _ _

theorem countName_cons (c : Constraint) (l : ModelCts) (n : CName) :
    countName (c :: l) n = countName l n + (if c.name = n then 1 else 0) := by
  unfold countName
  rw [List.countP_cons]
  by_cases h : c.name = n <;> simp [h]

theorem countName_eq_zero {l : ModelCts} {n : CName} :
    countName l n = 0 ↔ ∀ c ∈ l, c.name ≠ n := by
  unfold countName
  rw [List.countP_eq_zero]
  simp

theorem countName_map {f : Constraint → Constraint} (hf : ∀ c, (f c).name = c.name)
    (l : ModelCts) (n : CName) : countName (l.map f) n = countName l n := by
  unfold countName
  rw [List.countP_map]
  congr 1
  funext c
  simp [Function.comp, hf c]

theorem countName_pos_iff {l : ModelCts} {n : CName} :
    0 < countName l n ↔ ∃ c ∈ l, c.name = n := by
  unfold countName
  rw [List.countP_pos_iff]
  simp

theorem findCt_eq_none {l : ModelCts} {n : CName} (h : countName l n = 0) :
    findCt l n = none := by
  unfold findCt
  rw [List.find?_eq_none]
  intro c hc
  simp [countName_eq_zero.mp h c hc]

theorem findCt_exists_of_pos {l : ModelCts} {n : CName} (h : 0 < countName l n) :
    ∃ c, findCt l n = some c := by
  rcases countName_pos_iff.mp h with ⟨c, hc, hn⟩
  have : (findCt l n).isSome := by
    unfold findCt
    rw [List.find?_isSome]
    exact ⟨c, hc, by simp [hn]⟩
  rcases hfind : findCt l n with _ | c2
  · rw [hfind] at this
    simp at this
  · exact ⟨c2, rfl⟩

theorem findCt_name {l : ModelCts} {n : CName} {c : Constraint} (h : findCt l n = some c) :
    c.name = n := by
  have := List.find?_some h
  simpa using this

theorem findCt_mem {l : ModelCts} {n : CName} {c : Constraint} (h : findCt l n = some c) :
    c ∈ l :=
  List.mem_of_find?_eq_some h

theorem findCt_append_left {l1 : ModelCts} (l2 : ModelCts) {n : CName} {c : Constraint}
    (h : findCt l1 n = some c) : findCt (l1 ++ l2) n = some c := by
  induction l1 with
  | nil => simp [findCt, List.find?] at h
  | cons a t ih =>
      unfold findCt at h ⊢
      rw [List.cons_append]
      rw [List.find?_cons] at h ⊢
      rcases hb : (a.name == n) with _ | _
      · rw [hb] at h
        exact ih h
      · rw [hb] at h
        exact h

theorem findCt_append_right {l1 : ModelCts} (l2 : ModelCts) {n : CName}
    (h : countName l1 n = 0) : findCt (l1 ++ l2) n = findCt l2 n := by
  induction l1 with
  | nil => rfl
  | cons a t ih =>
      rw [countName_cons] at h
      have ha : a.name ≠ n := by
        intro he
        rw [if_pos he] at h
        omega
      have ht : countName t n = 0 := by
        rw [if_neg ha] at h
        omega
      unfold findCt at ih ⊢
      rw [List.cons_append, List.find?_cons]
      rcases hb : (a.name == n) with _ | _
      · exact ih ht
      · exact absurd (by simpa using hb) ha

theorem findCt_map {f : Constraint → Constraint} (hf : ∀ c, (f c).name = c.name)
    (l : ModelCts) (n : CName) : findCt (l.map f) n = (findCt l n).map f := by
  induction l with
  | nil => rfl
  | cons a t ih =>
      unfold findCt at ih ⊢
      rw [List.map_cons, List.find?_cons, List.find?_cons]
      have : ((f a).name == n) = (a.name == n) := by rw [hf a]
      rw [this]
      rcases hb : (a.name == n) with _ | _
      · exact ih
      · rfl

theorem map_extendIf_of_zero {l : ModelCts} {n : CName} (ex : List LinTerm)
    (h : countName l n = 0) :
    l.map (fun c => if c.name = n then extendCt c ex else c) = l := by
  induction l with
  | nil => rfl
  | cons a t ih =>
      rw [countName_cons] at h
      have ha : a.name ≠ n := by
        intro he
        rw [if_pos he] at h
        omega
      have ht : countName t n = 0 := by
        rw [if_neg ha] at h
        omega
      rw [List.map_cons, if_neg ha, ih ht]

theorem extendFirst_eq_map {l : ModelCts} {n : CName} (ex : List LinTerm)
    (h : countName l n ≤ 1) :
    extendFirst l n ex = l.map (fun c => if c.name = n then extendCt c ex else c) := by
  induction l with
  | nil => rfl
  | cons a t ih =>
      unfold extendFirst
      by_cases ha : a.name = n
      · rw [if_pos ha, List.map_cons, if_pos ha]
        have ht : countName t n = 0 := by
          rw [countName_cons, if_pos ha] at h
          omega
        rw [map_extendIf_of_zero ex ht]
      · rw [if_neg ha, List.map_cons, if_neg ha]
        rw [countName_cons, if_neg ha] at h
        rw [ih (by omega)]

theorem extendIf_name (n : CName) (ex : List LinTerm) (c : Constraint) :
    (if c.name = n then extendCt c ex else c).name = c.name := by
  split_ifs <;> rfl

theorem allocExtendBy_name (s : SampleCt) (K iL : List ℕ) (c : Constraint) :
    (allocExtendBy s K iL c).name = c.name := by
  unfold allocExtendBy
  split
  · split_ifs <;> rfl
  · rfl

theorem sampleExtend_name (samples : List SampleCt) (K : List ℕ) (c : Constraint) :
    (sampleExtend samples K c).name = c.name := by
  unfold sampleExtend
  split
  · split
    · rfl
    · rfl
  · split
    · split_ifs <;> rfl
    · rfl
  · rfl

theorem aggExtend_name (fixedN : Option ℕ) (samples : List SampleCt) (K : List ℕ)
    (c : Constraint) : (aggExtend fixedN samples K c).name = c.name := by
  unfold aggExtend
  split
  · split_ifs <;> rfl
  · split
    · rfl
    · rfl
  · split
    · split_ifs <;> rfl
    · rfl
  · rfl

theorem countName_map_zero {α : Type} (g : α → Constraint) (L : List α) (n : CName)
    (h : ∀ a ∈ L, (g a).name ≠ n) : countName (L.map g) n = 0 := by
  rw [countName_eq_zero]
  intro c hc
  rcases List.mem_map.mp hc with ⟨a, ha, rfl⟩
  exact h a ha

theorem allocExtendBy_nil (s : SampleCt) (K : List ℕ) (c : Constraint) :
    allocExtendBy s K [] c = c := by
  unfold allocExtendBy
  split
  · rw [if_neg]
    rintro ⟨_, h⟩
    cases h
  · rfl

theorem allocExtendBy_cons (s : SampleCt) (K : List ℕ) (i : ℕ) (t : List ℕ) (hit : i ∉ t)
    (c : Constraint) :
    allocExtendBy s K t (if c.name = CName.chargerAllocation s.index i
      then extendCt c (allocTerms s i K) else c) = allocExtendBy s K (i :: t) c := by
  rcases c with ⟨name, clhs, csense, crhs⟩
  cases name with
  | fixedStationNumber => simp [allocExtendBy]
  | serviceLevel s2 => simp [allocExtendBy]
  | chargerAllocation s2 i2 =>
      by_cases h1 : s2 = s.index ∧ i2 = i
      · rcases h1 with ⟨rfl, rfl⟩
        rw [if_pos rfl]
        simp [allocExtendBy, extendCt, hit]
      · rw [if_neg (by simpa using h1)]
        simp only [allocExtendBy]
        by_cases h2 : s2 = s.index ∧ i2 ∈ t
        · rw [if_pos h2, if_pos ⟨h2.1, List.mem_cons_of_mem _ h2.2⟩]
        · rw [if_neg h2, if_neg]
          rintro ⟨he, hmem⟩
          rcases List.mem_cons.mp hmem with rfl | hmem2
          · exact h1 ⟨he, rfl⟩
          · exact h2 ⟨he, hmem2⟩
  | numberW k2 => simp [allocExtendBy]
  | numberV k2 => simp [allocExtendBy]
  | allocationQW s2 k2 => simp [allocExtendBy]

theorem alloc_aux_extend (s : SampleCt) (K : List ℕ) (iList : List ℕ) (hnd : iList.Nodup)
    (M : ModelCts)
    (hcnt : ∀ i ∈ iList, countName M (CName.chargerAllocation s.index i) = 1) :
    update_allocation_constraints_aux s K iList M = M.map (allocExtendBy s K iList) := by
  induction iList generalizing M with
  | nil =>
      show M = _
      conv_lhs => rw [← List.map_id M]
      exact List.map_congr_left (fun c _ => (allocExtendBy_nil s K c).symm)
  | cons i t ih =>
      have hc1 := hcnt i (List.mem_cons_self _ _)
      rcases findCt_exists_of_pos (n := CName.chargerAllocation s.index i) (l := M)
        (by omega) with ⟨c0, hc0⟩
      show update_allocation_constraints_aux s K t
        (match findCt M (CName.chargerAllocation s.index i) with
         | none => M ++ [allocCtNew s i K]
         | some _ => extendFirst M (CName.chargerAllocation s.index i) (allocTerms s i K)) = _
      rw [hc0]
      rw [extendFirst_eq_map _ (by omega)]
      have hcnt2 : ∀ i2 ∈ t, countName
          (M.map (fun c => if c.name = CName.chargerAllocation s.index i
            then extendCt c (allocTerms s i K) else c))
          (CName.chargerAllocation s.index i2) = 1 := by
        intro i2 hi2
        rw [countName_map (extendIf_name _ _)]
        exact hcnt i2 (List.mem_cons_of_mem _ hi2)
      rw [ih (List.nodup_cons.mp hnd).2 _ hcnt2, List.map_map]
      apply List.map_congr_left
      intro c _
      exact allocExtendBy_cons s K i t (List.nodup_cons.mp hnd).1 c

theorem alloc_aux_create (s : SampleCt) (K : List ℕ) (iList : List ℕ) (hnd : iList.Nodup)
    (M : ModelCts)
    (hcnt : ∀ i ∈ iList, countName M (CName.chargerAllocation s.index i) = 0) :
    update_allocation_constraints_aux s K iList M =
      M ++ iList.map (fun i => allocCtNew s i K) := by
  induction iList generalizing M with
  | nil =>
      show M = _
      simp
  | cons i t ih =>
      show update_allocation_constraints_aux s K t
        (match findCt M (CName.chargerAllocation s.index i) with
         | none => M ++ [allocCtNew s i K]
         | some _ => extendFirst M (CName.chargerAllocation s.index i) (allocTerms s i K)) = _
      rw [findCt_eq_none (hcnt i (List.mem_cons_self _ _))]
      have hcnt2 : ∀ i2 ∈ t, countName (M ++ [allocCtNew s i K])
          (CName.chargerAllocation s.index i2) = 0 := by
        intro i2 hi2
        rw [countName_append, hcnt i2 (List.mem_cons_of_mem _ hi2)]
        have : countName [allocCtNew s i K] (CName.chargerAllocation s.index i2) = 0 := by
          rw [countName_eq_zero]
          intro c hc
          rcases List.mem_singleton.mp hc with rfl
          have hne : i ≠ i2 := by
            rintro rfl
            exact (List.nodup_cons.mp hnd).1 hi2
          simp [allocCtNew, hne]
        omega
      rw [ih (List.nodup_cons.mp hnd).2 _ hcnt2, List.append_assoc]
      rfl

theorem queueCt_name (s : SampleCt) (qs k : ℕ) :
    (queueCt s qs k).name = CName.allocationQW s.index k := rfl

theorem countName_queue_service (s : SampleCt) (qs : ℕ) (K : List ℕ) (n : ℕ) :
    countName (K.map (queueCt s qs)) (CName.serviceLevel n) = 0 :=
  countName_map_zero _ _ _ (fun a _ => by simp [queueCt])

theorem countName_queue_alloc (s : SampleCt) (qs : ℕ) (K : List ℕ) (n i : ℕ) :
    countName (K.map (queueCt s qs)) (CName.chargerAllocation n i) = 0 :=
  countName_map_zero _ _ _ (fun a _ => by simp [queueCt])

theorem countName_queue_fixed (s : SampleCt) (qs : ℕ) (K : List ℕ) :
    countName (K.map (queueCt s qs)) CName.fixedStationNumber = 0 :=
  countName_map_zero _ _ _ (fun a _ => by simp [queueCt])

theorem sampleExtend_nil (K : List ℕ) (c : Constraint) : sampleExtend [] K c = c := by
  unfold sampleExtend
  rcases c with ⟨name, clhs, csense, crhs⟩
  cases name <;> rfl

theorem sampleExtend_queue (samples : List SampleCt) (K : List ℕ) (s : SampleCt)
    (qs k : ℕ) : sampleExtend samples K (queueCt s qs k) = queueCt s qs k := rfl

theorem sampleExtend_cons (s : SampleCt) (rest : List SampleCt) (K : List ℕ)
    (hnotin : s.index ∉ rest.map SampleCt.index) (c : Constraint) :
    sampleExtend rest K
      (allocExtendBy s K (List.range s.nVehicles)
        (if c.name = CName.serviceLevel s.index then extendCt c (serviceTerms s K) else c)) =
      sampleExtend (s :: rest) K c := by
  have hfind_none : rest.find? (fun x => x.index == s.index) = none := by
    rw [List.find?_eq_none]
    intro x hx
    simp only [beq_iff_eq]
    intro he
    exact hnotin (he ▸ List.mem_map_of_mem SampleCt.index hx)
  rcases c with ⟨name, clhs, csense, crhs⟩
  cases name with
  | fixedStationNumber => simp [allocExtendBy, sampleExtend]
  | serviceLevel s2 =>
      by_cases h1 : s2 = s.index
      · subst h1
        rw [if_pos rfl]
        show sampleExtend rest K
          ⟨CName.serviceLevel s.index, ⟨clhs.terms ++ serviceTerms s K, clhs.const⟩,
            csense, crhs⟩ = _
        simp only [sampleExtend]
        rw [hfind_none, List.find?_cons_of_pos _ (by simp)]
        rfl
      · rw [if_neg (by simpa using h1)]
        rw [show allocExtendBy s K (List.range s.nVehicles)
            ⟨CName.serviceLevel s2, clhs, csense, crhs⟩ =
            ⟨CName.serviceLevel s2, clhs, csense, crhs⟩ from rfl]
        simp only [sampleExtend]
        rw [List.find?_cons_of_neg _
          (by simp only [beq_iff_eq]; exact fun he => h1 he.symm)]
  | chargerAllocation s2 i2 =>
      rw [if_neg (by simp)]
      by_cases h1 : s2 = s.index
      · subst h1
        by_cases h2 : i2 < s.nVehicles
        · have hA : allocExtendBy s K (List.range s.nVehicles)
              ⟨CName.chargerAllocation s.index i2, clhs, csense, crhs⟩ =
              ⟨CName.chargerAllocation s.index i2,
                ⟨clhs.terms ++ allocTerms s i2 K, clhs.const⟩, csense, crhs⟩ := by
            simp only [allocExtendBy]
            rw [if_pos ⟨by trivial, List.mem_range.mpr h2⟩]
            rfl
          rw [hA]
          simp only [sampleExtend]
          rw [hfind_none, List.find?_cons_of_pos _ (by simp)]
          show (⟨CName.chargerAllocation s.index i2,
              ⟨clhs.terms ++ allocTerms s i2 K, clhs.const⟩, csense, crhs⟩ : Constraint) =
            if i2 < s.nVehicles then
              extendCt ⟨CName.chargerAllocation s.index i2, clhs, csense, crhs⟩
                (allocTerms s i2 K)
            else ⟨CName.chargerAllocation s.index i2, clhs, csense, crhs⟩
          rw [if_pos h2]
          rfl
        · have hA : allocExtendBy s K (List.range s.nVehicles)
              ⟨CName.chargerAllocation s.index i2, clhs, csense, crhs⟩ =
              ⟨CName.chargerAllocation s.index i2, clhs, csense, crhs⟩ := by
            simp only [allocExtendBy]
            rw [if_neg (fun hand => h2 (List.mem_range.mp hand.2))]
          rw [hA]
          simp only [sampleExtend]
          rw [hfind_none, List.find?_cons_of_pos _ (by simp)]
          show (⟨CName.chargerAllocation s.index i2, clhs, csense, crhs⟩ : Constraint) =
            if i2 < s.nVehicles then
              extendCt ⟨CName.chargerAllocation s.index i2, clhs, csense, crhs⟩
                (allocTerms s i2 K)
            else ⟨CName.chargerAllocation s.index i2, clhs, csense, crhs⟩
          rw [if_neg h2]
      · have hA : allocExtendBy s K (List.range s.nVehicles)
            ⟨CName.chargerAllocation s2 i2, clhs, csense, crhs⟩ =
            ⟨CName.chargerAllocation s2 i2, clhs, csense, crhs⟩ := by
          simp only [allocExtendBy]
          rw [if_neg (fun hand => h1 hand.1)]
        rw [hA]
        simp only [sampleExtend]
        rw [List.find?_cons_of_neg _
          (by simp only [beq_iff_eq]; exact fun he => h1 he.symm)]
  | numberW k2 => simp [allocExtendBy, sampleExtend]
  | numberV k2 => simp [allocExtendBy, sampleExtend]
  | allocationQW s2 k2 => simp [allocExtendBy, sampleExtend]

theorem sample_phase_extend (sl : ℚ) (qs : ℕ) (K : List ℕ) (samples : List SampleCt)
    (M : ModelCts)
    (hidx : (samples.map SampleCt.index).Nodup)
    (hserv : ∀ s ∈ samples, countName M (CName.serviceLevel s.index) = 1)
    (halloc : ∀ s ∈ samples, ∀ i, i < s.nVehicles →
      countName M (CName.chargerAllocation s.index i) = 1) :
    sample_phase sl qs K samples M =
      M.map (sampleExtend samples K) ++ samples.flatMap (fun s => K.map (queueCt s qs)) := by
  induction samples generalizing M with
  | nil =>
      show M = _
      rw [List.flatMap_nil, List.append_nil]
      conv_lhs => rw [← List.map_id M]
      exact List.map_congr_left (fun c _ => (sampleExtend_nil K c).symm)
  | cons s rest ih =>
      show sample_phase sl qs K rest
        (update_allocation_constraints s K
          (update_service_constraint s sl K
            (add_max_queue_constraints s qs K M))) = _
      have hq : add_max_queue_constraints s qs K M = M ++ K.map (queueCt s qs) := rfl
      have hcnt_srv : countName (M ++ K.map (queueCt s qs)) (CName.serviceLevel s.index) = 1 := by
        rw [countName_append, countName_queue_service,
          hserv s (List.mem_cons_self _ _)]
      rcases findCt_exists_of_pos (l := M ++ K.map (queueCt s qs))
        (n := CName.serviceLevel s.index) (by omega) with ⟨c0, hc0⟩
      have hsrv_step : update_service_constraint s sl K (M ++ K.map (queueCt s qs)) =
          (M ++ K.map (queueCt s qs)).map
            (fun c => if c.name = CName.serviceLevel s.index
              then extendCt c (serviceTerms s K) else c) := by
        unfold update_service_constraint
        rw [hc0]
        exact extendFirst_eq_map _ (by omega)
      have hcnt_alloc : ∀ i ∈ List.range s.nVehicles,
          countName ((M ++ K.map (queueCt s qs)).map
            (fun c => if c.name = CName.serviceLevel s.index
              then extendCt c (serviceTerms s K) else c))
            (CName.chargerAllocation s.index i) = 1 := by
        intro i hi
        rw [countName_map (extendIf_name _ _), countName_append, countName_queue_alloc,
          halloc s (List.mem_cons_self _ _) i (List.mem_range.mp hi)]
      have halloc_step := alloc_aux_extend s K (List.range s.nVehicles)
        (List.nodup_range _) _ hcnt_alloc
      rw [hq, hsrv_step]
      unfold update_allocation_constraints
      rw [halloc_step, List.map_map]
      have hcomp : ∀ c ∈ M ++ K.map (queueCt s qs),
          (allocExtendBy s K (List.range s.nVehicles) ∘
            (fun c => if c.name = CName.serviceLevel s.index
              then extendCt c (serviceTerms s K) else c)) c =
          (fun c => allocExtendBy s K (List.range s.nVehicles)
            (if c.name = CName.serviceLevel s.index
              then extendCt c (serviceTerms s K) else c)) c := fun c _ => rfl
      rw [List.map_congr_left hcomp]
      have hcnt2_srv : ∀ s2 ∈ rest, countName
          ((M ++ K.map (queueCt s qs)).map
            (fun c => allocExtendBy s K (List.range s.nVehicles)
              (if c.name = CName.serviceLevel s.index
                then extendCt c (serviceTerms s K) else c)))
          (CName.serviceLevel s2.index) = 1 := by
        intro s2 hs2
        rw [countName_map (fun c => by
          rw [allocExtendBy_name, extendIf_name])]
        rw [countName_append, countName_queue_service, hserv s2 (List.mem_cons_of_mem _ hs2)]
      have hcnt2_alloc : ∀ s2 ∈ rest, ∀ i, i < s2.nVehicles → countName
          ((M ++ K.map (queueCt s qs)).map
            (fun c => allocExtendBy s K (List.range s.nVehicles)
              (if c.name = CName.serviceLevel s.index
                then extendCt c (serviceTerms s K) else c)))
          (CName.chargerAllocation s2.index i) = 1 := by
        intro s2 hs2 i hi
        rw [countName_map (fun c => by
          rw [allocExtendBy_name, extendIf_name])]
        rw [countName_append, countName_queue_alloc,
          halloc s2 (List.mem_cons_of_mem _ hs2) i hi]
      rw [ih _ ((List.nodup_cons.mp (by simpa using hidx)).2) hcnt2_srv hcnt2_alloc]
      rw [List.map_map, List.map_append]
      have hnotin : s.index ∉ rest.map SampleCt.index :=
        (List.nodup_cons.mp (by simpa using hidx)).1
      have hQ : (K.map (queueCt s qs)).map
          (sampleExtend rest K ∘
            fun c => allocExtendBy s K (List.range s.nVehicles)
              (if c.name = CName.serviceLevel s.index
                then extendCt c (serviceTerms s K) else c)) = K.map (queueCt s qs) := by
        rw [List.map_map]
        apply List.map_congr_left
        intro k _
        show sampleExtend rest K
          (allocExtendBy s K (List.range s.nVehicles)
            (if (queueCt s qs k).name = CName.serviceLevel s.index
              then extendCt (queueCt s qs k) (serviceTerms s K) else queueCt s qs k)) = _
        rw [show (if (queueCt s qs k).name = CName.serviceLevel s.index
            then extendCt (queueCt s qs k) (serviceTerms s K) else queueCt s qs k) =
            queueCt s qs k from if_neg (by simp [queueCt])]
        rw [show allocExtendBy s K (List.range s.nVehicles) (queueCt s qs k) =
            queueCt s qs k from rfl]
        exact sampleExtend_queue rest K s qs k
      have hM : M.map
          (sampleExtend rest K ∘
            fun c => allocExtendBy s K (List.range s.nVehicles)
              (if c.name = CName.serviceLevel s.index
                then extendCt c (serviceTerms s K) else c)) =
          M.map (sampleExtend (s :: rest) K) :=
        List.map_congr_left (fun c _ => sampleExtend_cons s rest K hnotin c)
      rw [hQ, hM, List.flatMap_cons, List.append_assoc]

theorem sample_phase_create (sl : ℚ) (qs : ℕ) (K : List ℕ) (samples : List SampleCt)
    (M : ModelCts)
    (hidx : (samples.map SampleCt.index).Nodup)
    (hserv : ∀ s ∈ samples, countName M (CName.serviceLevel s.index) = 0)
    (halloc : ∀ s ∈ samples, ∀ i, i < s.nVehicles →
      countName M (CName.chargerAllocation s.index i) = 0) :
    sample_phase sl qs K samples M = M ++ createdSampleCts sl qs K samples := by
  induction samples generalizing M with
  | nil =>
      show M = _
      simp [createdSampleCts]
  | cons s rest ih =>
      show sample_phase sl qs K rest
        (update_allocation_constraints s K
          (update_service_constraint s sl K (M ++ K.map (queueCt s qs)))) = _
      have hsrv0 : countName (M ++ K.map (queueCt s qs)) (CName.serviceLevel s.index) = 0 := by
        rw [countName_append, countName_queue_service, hserv s (List.mem_cons_self _ _)]
      have hsrv_step : update_service_constraint s sl K (M ++ K.map (queueCt s qs)) =
          M ++ K.map (queueCt s qs) ++ [serviceCtNew s sl K] := by
        unfold update_service_constraint
        rw [findCt_eq_none hsrv0]
      rw [hsrv_step]
      unfold update_allocation_constraints
      have hcnt_alloc : ∀ i ∈ List.range s.nVehicles,
          countName (M ++ K.map (queueCt s qs) ++ [serviceCtNew s sl K])
            (CName.chargerAllocation s.index i) = 0 := by
        intro i hi
        rw [countName_append, countName_append, countName_queue_alloc]
        rw [halloc s (List.mem_cons_self _ _) i (List.mem_range.mp hi)]
        have hsv : countName [serviceCtNew s sl K] (CName.chargerAllocation s.index i) = 0 := by
          rw [countName_eq_zero]
          intro c hc
          rcases List.mem_singleton.mp hc with rfl
          simp [serviceCtNew]
        omega
      rw [alloc_aux_create s K _ (List.nodup_range _) _ hcnt_alloc]
      have hne : ∀ s2 ∈ rest, s.index ≠ s2.index := by
        intro s2 hs2 he
        exact (List.nodup_cons.mp (by simpa using hidx)).1
          (he ▸ List.mem_map_of_mem SampleCt.index hs2)
      have hserv2 : ∀ s2 ∈ rest, countName
          (M ++ K.map (queueCt s qs) ++ [serviceCtNew s sl K] ++
            (List.range s.nVehicles).map (fun i => allocCtNew s i K))
          (CName.serviceLevel s2.index) = 0 := by
        intro s2 hs2
        rw [countName_append, countName_append, countName_append, countName_queue_service,
          hserv s2 (List.mem_cons_of_mem _ hs2)]
        have h1 : countName [serviceCtNew s sl K] (CName.serviceLevel s2.index) = 0 := by
          rw [countName_eq_zero]
          intro c hc
          rcases List.mem_singleton.mp hc with rfl
          simp [serviceCtNew, hne s2 hs2]
        have h2 : countName ((List.range s.nVehicles).map (fun i => allocCtNew s i K))
            (CName.serviceLevel s2.index) = 0 :=
          countName_map_zero _ _ _ (fun a _ => by simp [allocCtNew])
        omega
      have halloc2 : ∀ s2 ∈ rest, ∀ i, i < s2.nVehicles → countName
          (M ++ K.map (queueCt s qs) ++ [serviceCtNew s sl K] ++
            (List.range s.nVehicles).map (fun i => allocCtNew s i K))
          (CName.chargerAllocation s2.index i) = 0 := by
        intro s2 hs2 i hi
        rw [countName_append, countName_append, countName_append, countName_queue_alloc,
          halloc s2 (List.mem_cons_of_mem _ hs2) i hi]
        have h1 : countName [serviceCtNew s sl K] (CName.chargerAllocation s2.index i) = 0 := by
          rw [countName_eq_zero]
          intro c hc
          rcases List.mem_singleton.mp hc with rfl
          simp [serviceCtNew]
        have h2 : countName ((List.range s.nVehicles).map (fun i2 => allocCtNew s i2 K))
            (CName.chargerAllocation s2.index i) = 0 :=
          countName_map_zero _ _ _ (fun a _ => by simp [allocCtNew, hne s2 hs2])
        omega
      rw [ih _ ((List.nodup_cons.mp (by simpa using hidx)).2) hserv2 halloc2]
      simp only [createdSampleCts, List.append_assoc]

theorem aggExtend_none (samples : List SampleCt) (K : List ℕ) (c : Constraint) :
    aggExtend none samples K c = sampleExtend samples K c := by
  rcases c with ⟨name, clhs, csense, crhs⟩
  cases name with
  | fixedStationNumber => rfl
  | serviceLevel s2 =>
      unfold aggExtend sampleExtend
      cases hfind : samples.find? (fun s => s.index == s2) <;> rfl
  | chargerAllocation s2 i2 =>
      unfold aggExtend sampleExtend
      cases hfind : samples.find? (fun s => s.index == s2) <;> rfl
  | numberW k2 => rfl
  | numberV k2 => rfl
  | allocationQW s2 k2 => rfl

theorem aggExtend_some (nfix : ℕ) (samples : List SampleCt) (K : List ℕ) (c : Constraint) :
    sampleExtend samples K (if c.name = CName.fixedStationNumber
      then extendCt c (vTerms K) else c) = aggExtend (some nfix) samples K c := by
  rcases c with ⟨name, clhs, csense, crhs⟩
  cases name with
  | fixedStationNumber =>
      rw [if_pos rfl]
      rfl
  | serviceLevel s2 =>
      rw [if_neg (by simp)]
      unfold aggExtend sampleExtend
      cases hfind : samples.find? (fun s => s.index == s2) <;> rfl
  | chargerAllocation s2 i2 =>
      rw [if_neg (by simp)]
      unfold aggExtend sampleExtend
      cases hfind : samples.find? (fun s => s.index == s2) <;> rfl
  | numberW k2 => rw [if_neg (by simp)]; rfl
  | numberV k2 => rw [if_neg (by simp)]; rfl
  | allocationQW s2 k2 => rw [if_neg (by simp)]; rfl

theorem update_constraints_extend (fixedN : Option ℕ) (ub qs : ℕ) (sl : ℚ)
    (samples : List SampleCt) (K : List ℕ) (cts : ModelCts)
    (hidx : (samples.map SampleCt.index).Nodup)
    (hfix : fixedN.isSome → countName cts CName.fixedStationNumber = 1)
    (hserv : ∀ s ∈ samples, countName cts (CName.serviceLevel s.index) = 1)
    (halloc : ∀ s ∈ samples, ∀ i, i < s.nVehicles →
      countName cts (CName.chargerAllocation s.index i) = 1) :
    update_constraints fixedN ub qs sl samples K cts =
      cts.map (aggExtend fixedN samples K) ++ appendedCts ub qs samples K := by
  have hWserv : ∀ n, countName (K.map (wLtMvCt ub)) (CName.serviceLevel n) = 0 :=
    fun n => countName_map_zero _ _ _ (fun a _ => by simp [wLtMvCt])
  have hVserv : ∀ n, countName (K.map vLtWCt) (CName.serviceLevel n) = 0 :=
    fun n => countName_map_zero _ _ _ (fun a _ => by simp [vLtWCt])
  have hWalloc : ∀ n i, countName (K.map (wLtMvCt ub)) (CName.chargerAllocation n i) = 0 :=
    fun n i => countName_map_zero _ _ _ (fun a _ => by simp [wLtMvCt])
  have hValloc : ∀ n i, countName (K.map vLtWCt) (CName.chargerAllocation n i) = 0 :=
    fun n i => countName_map_zero _ _ _ (fun a _ => by simp [vLtWCt])
  have hWmap : ∀ SE : Constraint → Constraint, (∀ k, SE (wLtMvCt ub k) = wLtMvCt ub k) →
      (K.map (wLtMvCt ub)).map SE = K.map (wLtMvCt ub) := by
    intro SE hSE
    rw [List.map_map]
    exact List.map_congr_left (fun k _ => hSE k)
  have hVmap : ∀ SE : Constraint → Constraint, (∀ k, SE (vLtWCt k) = vLtWCt k) →
      (K.map vLtWCt).map SE = K.map vLtWCt := by
    intro SE hSE
    rw [List.map_map]
    exact List.map_congr_left (fun k _ => hSE k)
  unfold update_constraints
  rcases fixedN with _ | nfix
  · show sample_phase sl qs K samples
      (cts ++ K.map (wLtMvCt ub) ++ K.map vLtWCt) = _
    rw [sample_phase_extend sl qs K samples _ hidx
      (by
        intro s hs
        rw [countName_append, countName_append, hWserv, hVserv, hserv s hs])
      (by
        intro s hs i hi
        rw [countName_append, countName_append, hWalloc, hValloc, halloc s hs i hi])]
    rw [List.map_append, List.map_append]
    rw [hWmap _ (fun k => rfl), hVmap _ (fun k => rfl)]
    rw [List.map_congr_left (fun c (_ : c ∈ cts) => (aggExtend_none samples K c).symm)]
    unfold appendedCts
    simp only [List.append_assoc]
  · have hfix1 := hfix (by simp)
    rcases findCt_exists_of_pos (l := cts) (n := CName.fixedStationNumber)
      (by omega) with ⟨c0, hc0⟩
    have hfix_step : update_fixed_station_number_constraint nfix K cts =
        cts.map (fun c => if c.name = CName.fixedStationNumber
          then extendCt c (vTerms K) else c) := by
      unfold update_fixed_station_number_constraint
      rw [hc0]
      exact extendFirst_eq_map _ (by omega)
    show sample_phase sl qs K samples
      (update_fixed_station_number_constraint nfix K cts ++ K.map (wLtMvCt ub) ++
        K.map vLtWCt) = _
    rw [hfix_step]
    rw [sample_phase_extend sl qs K samples _ hidx
      (by
        intro s hs
        rw [countName_append, countName_append, hWserv, hVserv,
          countName_map (extendIf_name _ _), hserv s hs])
      (by
        intro s hs i hi
        rw [countName_append, countName_append, hWalloc, hValloc,
          countName_map (extendIf_name _ _), halloc s hs i hi])]
    rw [List.map_append, List.map_append]
    rw [hWmap _ (fun k => rfl), hVmap _ (fun k => rfl)]
    rw [List.map_map]
    have hcomp : List.map (sampleExtend samples K ∘ fun c =>
        if c.name = CName.fixedStationNumber then extendCt c (vTerms K) else c) cts =
        List.map (aggExtend (some nfix) samples K) cts :=
      List.map_congr_left (fun c _ => aggExtend_some nfix samples K c)
    rw [hcomp]
    unfold appendedCts
    simp only [List.append_assoc]

theorem update_constraints_create_empty (fixedN : Option ℕ) (ub qs : ℕ) (sl : ℚ)
    (samples : List SampleCt) (K : List ℕ)
    (hidx : (samples.map SampleCt.index).Nodup) :
    update_constraints fixedN ub qs sl samples K [] =
      createdCts fixedN ub qs sl samples K := by
  have hWserv : ∀ n, countName (K.map (wLtMvCt ub)) (CName.serviceLevel n) = 0 :=
    fun n => countName_map_zero _ _ _ (fun a _ => by simp [wLtMvCt])
  have hVserv : ∀ n, countName (K.map vLtWCt) (CName.serviceLevel n) = 0 :=
    fun n => countName_map_zero _ _ _ (fun a _ => by simp [vLtWCt])
  have hWalloc : ∀ n i, countName (K.map (wLtMvCt ub)) (CName.chargerAllocation n i) = 0 :=
    fun n i => countName_map_zero _ _ _ (fun a _ => by simp [wLtMvCt])
  have hValloc : ∀ n i, countName (K.map vLtWCt) (CName.chargerAllocation n i) = 0 :=
    fun n i => countName_map_zero _ _ _ (fun a _ => by simp [vLtWCt])
  unfold update_constraints
  rcases fixedN with _ | nfix
  · show sample_phase sl qs K samples
      (([] : ModelCts) ++ K.map (wLtMvCt ub) ++ K.map vLtWCt) = _
    rw [sample_phase_create sl qs K samples _ hidx
      (by
        intro s hs
        rw [countName_append, countName_append, hWserv, hVserv, countName_nil])
      (by
        intro s hs i hi
        rw [countName_append, countName_append, hWalloc, hValloc, countName_nil])]
    unfold createdCts
    simp only [List.nil_append, List.append_assoc]
  · have hfix_step : update_fixed_station_number_constraint nfix K [] =
        [fixedCtNew nfix K] := by
      unfold update_fixed_station_number_constraint
      rw [findCt_eq_none (by rw [countName_nil])]
      rfl
    show sample_phase sl qs K samples
      (update_fixed_station_number_constraint nfix K [] ++ K.map (wLtMvCt ub) ++
        K.map vLtWCt) = _
    rw [hfix_step]
    rw [sample_phase_create sl qs K samples _ hidx
      (by
        intro s hs
        rw [countName_append, countName_append, hWserv, hVserv]
        have : countName [fixedCtNew nfix K] (CName.serviceLevel s.index) = 0 := by
          rw [countName_eq_zero]
          intro c hc
          rcases List.mem_singleton.mp hc with rfl
          simp [fixedCtNew]
        omega)
      (by
        intro s hs i hi
        rw [countName_append, countName_append, hWalloc, hValloc]
        have : countName [fixedCtNew nfix K] (CName.chargerAllocation s.index i) = 0 := by
          rw [countName_eq_zero]
          intro c hc
          rcases List.mem_singleton.mp hc with rfl
          simp [fixedCtNew]
        omega)]
    unfold createdCts
    simp only [List.singleton_append, List.cons_append, List.append_assoc]

theorem find_sample_self (samples : List SampleCt) (s : SampleCt)
    (hidx : (samples.map SampleCt.index).Nodup) (hs : s ∈ samples) :
    samples.find? (fun x => x.index == s.index) = some s := by
  induction samples with
  | nil => cases hs
  | cons a rest ih =>
      rcases List.mem_cons.mp hs with rfl | hmem
      · rw [List.find?_cons_of_pos _ (by simp)]
      · have hne : a.index ≠ s.index := by
          intro he
          exact (List.nodup_cons.mp (by simpa using hidx)).1
            (he ▸ List.mem_map_of_mem SampleCt.index hmem)
        rw [List.find?_cons_of_neg _ (by simpa using hne)]
        exact ih ((List.nodup_cons.mp (by simpa using hidx)).2) hmem

theorem aggExtend_at_fixed (nfix : ℕ) (samples : List SampleCt) (K : List ℕ)
    (clhs : LinExpr) (csense : CSense) (crhs : LinExpr) :
    aggExtend (some nfix) samples K ⟨CName.fixedStationNumber, clhs, csense, crhs⟩ =
      extendCt ⟨CName.fixedStationNumber, clhs, csense, crhs⟩ (vTerms K) := rfl

theorem aggExtend_at_service (fixedN : Option ℕ) (samples : List SampleCt) (K : List ℕ)
    (s : SampleCt) (clhs : LinExpr) (csense : CSense) (crhs : LinExpr)
    (hfind : samples.find? (fun x => x.index == s.index) = some s) :
    aggExtend fixedN samples K ⟨CName.serviceLevel s.index, clhs, csense, crhs⟩ =
      extendCt ⟨CName.serviceLevel s.index, clhs, csense, crhs⟩ (serviceTerms s K) := by
  unfold aggExtend
  dsimp only
  rw [hfind]

theorem aggExtend_at_alloc (fixedN : Option ℕ) (samples : List SampleCt) (K : List ℕ)
    (s : SampleCt) (i : ℕ) (hi : i < s.nVehicles)
    (clhs : LinExpr) (csense : CSense) (crhs : LinExpr)
    (hfind : samples.find? (fun x => x.index == s.index) = some s) :
    aggExtend fixedN samples K ⟨CName.chargerAllocation s.index i, clhs, csense, crhs⟩ =
      extendCt ⟨CName.chargerAllocation s.index i, clhs, csense, crhs⟩ (allocTerms s i K) := by
  unfold aggExtend
  dsimp only
  rw [hfind]
  show (if i < s.nVehicles then _ else _) = _
  rw [if_pos hi]

theorem countName_flatMapQ_zero (qs : ℕ) (K : List ℕ) (samples : List SampleCt)
    (n : CName) (h : ∀ s ∈ samples, ∀ k ∈ K, CName.allocationQW s.index k ≠ n) :
    countName (samples.flatMap fun s => K.map (queueCt s qs)) n = 0 := by
  rw [countName_eq_zero]
  intro c hc
  rcases List.mem_flatMap.mp hc with ⟨s, hsmem, hcmem⟩
  rcases List.mem_map.mp hcmem with ⟨k, hk, rfl⟩
  exact h s hsmem k hk

theorem countName_appended_service (ub qs : ℕ) (samples : List SampleCt) (K : List ℕ)
    (n : ℕ) : countName (appendedCts ub qs samples K) (CName.serviceLevel n) = 0 := by
  unfold appendedCts
  rw [countName_append, countName_append,
    countName_map_zero _ _ _ (fun a _ => by simp [wLtMvCt]),
    countName_map_zero _ _ _ (fun a _ => by simp [vLtWCt]),
    countName_flatMapQ_zero _ _ _ _ (fun s _ k _ => by simp)]

theorem countName_appended_alloc (ub qs : ℕ) (samples : List SampleCt) (K : List ℕ)
    (n i : ℕ) : countName (appendedCts ub qs samples K) (CName.chargerAllocation n i) = 0 := by
  unfold appendedCts
  rw [countName_append, countName_append,
    countName_map_zero _ _ _ (fun a _ => by simp [wLtMvCt]),
    countName_map_zero _ _ _ (fun a _ => by simp [vLtWCt]),
    countName_flatMapQ_zero _ _ _ _ (fun s _ k _ => by simp)]

theorem countName_appended_fixed (ub qs : ℕ) (samples : List SampleCt) (K : List ℕ) :
    countName (appendedCts ub qs samples K) CName.fixedStationNumber = 0 := by
  unfold appendedCts
  rw [countName_append, countName_append,
    countName_map_zero _ _ _ (fun a _ => by simp [wLtMvCt]),
    countName_map_zero _ _ _ (fun a _ => by simp [vLtWCt]),
    countName_flatMapQ_zero _ _ _ _ (fun s _ k _ => by simp)]

theorem countName_ctmap_count {g : ℕ → Constraint} (K : List ℕ) (n : CName)
    (k : ℕ) (hgk : (g k).name = n) (hg : ∀ k2, (g k2).name = n → k2 = k) :
    countName (K.map g) n = K.count k := by
  unfold countName
  rw [List.countP_map]
  unfold List.count
  apply List.countP_congr
  intro k2 _
  simp only [Function.comp, beq_iff_eq]
  constructor
  · intro he
    exact hg k2 he
  · intro he
    rw [he]
    exact hgk

theorem countName_appended_numberW (ub qs : ℕ) (samples : List SampleCt) (K : List ℕ)
    (hK : K.Nodup) (k : ℕ) (hk : k ∈ K) :
    countName (appendedCts ub qs samples K) (CName.numberW k) = 1 := by
  unfold appendedCts
  rw [countName_append, countName_append,
    countName_ctmap_count K _ k (by simp [wLtMvCt]) (fun k2 h => by simpa [wLtMvCt] using h),
    List.count_eq_one_of_mem hK hk,
    countName_map_zero _ _ _ (fun a _ => by simp [vLtWCt]),
    countName_flatMapQ_zero _ _ _ _ (fun s _ k2 _ => by simp)]

theorem countName_appended_numberV (ub qs : ℕ) (samples : List SampleCt) (K : List ℕ)
    (hK : K.Nodup) (k : ℕ) (hk : k ∈ K) :
    countName (appendedCts ub qs samples K) (CName.numberV k) = 1 := by
  unfold appendedCts
  rw [countName_append, countName_append,
    countName_map_zero _ _ _ (fun a _ => by simp [wLtMvCt]),
    countName_ctmap_count K _ k (by simp [vLtWCt]) (fun k2 h => by simpa [vLtWCt] using h),
    List.count_eq_one_of_mem hK hk,
    countName_flatMapQ_zero _ _ _ _ (fun s _ k2 _ => by simp)]

theorem countName_flatMapQ_one (qs : ℕ) (K : List ℕ) (hK : K.Nodup)
    (samples : List SampleCt) (hidx : (samples.map SampleCt.index).Nodup)
    (s : SampleCt) (hs : s ∈ samples) (k : ℕ) (hk : k ∈ K) :
    countName (samples.flatMap fun s2 => K.map (queueCt s2 qs))
      (CName.allocationQW s.index k) = 1 := by
  induction samples with
  | nil => cases hs
  | cons a rest ih =>
      rw [List.flatMap_cons, countName_append]
      rcases List.mem_cons.mp hs with rfl | hmem
      · have hrest : countName (rest.flatMap fun s2 => K.map (queueCt s2 qs))
            (CName.allocationQW s.index k) = 0 := by
          apply countName_flatMapQ_zero
          intro s2 hs2 k2 _
          have hnei : s.index ≠ s2.index := by
            intro he
            exact (List.nodup_cons.mp (by simpa using hidx)).1
              (he ▸ List.mem_map_of_mem SampleCt.index hs2)
          intro hcontra
          injection hcontra with h1 h2
          exact hnei h1.symm
        rw [hrest,
          countName_ctmap_count K _ k (by simp [queueCt])
            (fun k2 h => by simpa [queueCt] using h),
          List.count_eq_one_of_mem hK hk]
      · have hne : a.index ≠ s.index := by
          intro he
          exact (List.nodup_cons.mp (by simpa using hidx)).1
            (he ▸ List.mem_map_of_mem SampleCt.index hmem)
        rw [countName_map_zero _ _ _ (fun k2 _ => by
            intro hcontra
            injection hcontra with h1 h2
            exact hne h1),
          ih ((List.nodup_cons.mp (by simpa using hidx)).2) hmem]

theorem mem_appended_wLtMv (ub qs : ℕ) (samples : List SampleCt) (K : List ℕ)
    (k : ℕ) (hk : k ∈ K) : wLtMvCt ub k ∈ appendedCts ub qs samples K := by
  unfold appendedCts
  exact List.mem_append_left _ (List.mem_append_left _ (List.mem_map_of_mem _ hk))

theorem mem_appended_vLtW (ub qs : ℕ) (samples : List SampleCt) (K : List ℕ)
    (k : ℕ) (hk : k ∈ K) : vLtWCt k ∈ appendedCts ub qs samples K := by
  unfold appendedCts
  exact List.mem_append_left _ (List.mem_append_right _ (List.mem_map_of_mem _ hk))

theorem mem_appended_queue (ub qs : ℕ) (samples : List SampleCt) (K : List ℕ)
    (s : SampleCt) (hs : s ∈ samples) (k : ℕ) (hk : k ∈ K) :
    queueCt s qs k ∈ appendedCts ub qs samples K := by
  unfold appendedCts
  apply List.mem_append_right
  rw [List.mem_flatMap]
  exact ⟨s, hs, List.mem_map_of_mem _ hk⟩

/-- C1: on an iteration after the first — every aggregate constraint
already present exactly once — extending the model to the new index block
`K = range(n0, n0 + p)` fetches each aggregate constraint (fixed station
count, per-sample service level, per-point at-most-one allocation) by name
and extends its left-hand sum with the `K`-indexed terms in place, keeping
exactly one constraint of that name rather than adding a second one; the
per-location constraints (count bound `number_w`, built bound `number_v`,
queue cap `allocation_qw`) are appended as one new instance per `k ∈ K`. -/
theorem C1_aggregates_extended_perloc_appended (fixedN : Option ℕ) (ub qs : ℕ) (sl : ℚ)
    (samples : List SampleCt) (n0 p : ℕ) (cts : ModelCts)
    (hidx : (samples.map SampleCt.index).Nodup)
    (hfix : fixedN.isSome → countName cts CName.fixedStationNumber = 1)
    (hserv : ∀ s ∈ samples, countName cts (CName.serviceLevel s.index) = 1)
    (halloc : ∀ s ∈ samples, ∀ i, i < s.nVehicles →
      countName cts (CName.chargerAllocation s.index i) = 1) :
    (fixedN.isSome →
      countName (update_constraints fixedN ub qs sl samples (List.range' n0 p) cts)
        CName.fixedStationNumber = 1 ∧
      ∃ c, findCt cts CName.fixedStationNumber = some c ∧
        findCt (update_constraints fixedN ub qs sl samples (List.range' n0 p) cts)
          CName.fixedStationNumber = some (extendCt c (vTerms (List.range' n0 p)))) ∧
    (∀ s ∈ samples,
      countName (update_constraints fixedN ub qs sl samples (List.range' n0 p) cts)
        (CName.serviceLevel s.index) = 1 ∧
      ∃ c, findCt cts (CName.serviceLevel s.index) = some c ∧
        findCt (update_constraints fixedN ub qs sl samples (List.range' n0 p) cts)
          (CName.serviceLevel s.index) =
            some (extendCt c (serviceTerms s (List.range' n0 p)))) ∧
    (∀ s ∈ samples, ∀ i, i < s.nVehicles →
      countName (update_constraints fixedN ub qs sl samples (List.range' n0 p) cts)
        (CName.chargerAllocation s.index i) = 1 ∧
      ∃ c, findCt cts (CName.chargerAllocation s.index i) = some c ∧
        findCt (update_constraints fixedN ub qs sl samples (List.range' n0 p) cts)
          (CName.chargerAllocation s.index i) =
            some (extendCt c (allocTerms s i (List.range' n0 p)))) ∧
    (∀ k ∈ List.range' n0 p,
      countName (update_constraints fixedN ub qs sl samples (List.range' n0 p) cts)
        (CName.numberW k) = countName cts (CName.numberW k) + 1 ∧
      wLtMvCt ub k ∈ update_constraints fixedN ub qs sl samples (List.range' n0 p) cts ∧
      countName (update_constraints fixedN ub qs sl samples (List.range' n0 p) cts)
        (CName.numberV k) = countName cts (CName.numberV k) + 1 ∧
      vLtWCt k ∈ update_constraints fixedN ub qs sl samples (List.range' n0 p) cts) ∧
    (∀ s ∈ samples, ∀ k ∈ List.range' n0 p,
      countName (update_constraints fixedN ub qs sl samples (List.range' n0 p) cts)
        (CName.allocationQW s.index k) =
          countName cts (CName.allocationQW s.index k) + 1 ∧
      queueCt s qs k ∈ update_constraints fixedN ub qs sl samples (List.range' n0 p) cts) := by
  have hEQ := update_constraints_extend fixedN ub qs sl samples (List.range' n0 p) cts
    hidx hfix hserv halloc
  have hname := aggExtend_name fixedN samples (List.range' n0 p)
  refine ⟨?_, ?_, ?_, ?_, ?_⟩
  · intro hsome
    rcases fixedN with _ | nfix
    · simp at hsome
    have hfix1 := hfix (by simp)
    constructor
    · rw [hEQ, countName_append, countName_map hname, countName_appended_fixed, hfix1]
    · rcases findCt_exists_of_pos (l := cts) (n := CName.fixedStationNumber)
        (by omega) with ⟨c, hc⟩
      refine ⟨c, hc, ?_⟩
      rw [hEQ]
      have hmapped : findCt (cts.map (aggExtend (some nfix) samples (List.range' n0 p)))
          CName.fixedStationNumber =
            some (aggExtend (some nfix) samples (List.range' n0 p) c) := by
        rw [findCt_map hname, hc]
        rfl
      rw [findCt_append_left _ hmapped]
      rcases c with ⟨cname, clhs, cs, crh⟩
      have : cname = CName.fixedStationNumber := findCt_name hc
      subst this
      rw [aggExtend_at_fixed]
  · intro s hs
    have hsrv1 := hserv s hs
    have hfound := find_sample_self samples s hidx hs
    constructor
    · rw [hEQ, countName_append, countName_map hname, countName_appended_service, hsrv1]
    · rcases findCt_exists_of_pos (l := cts) (n := CName.serviceLevel s.index)
        (by omega) with ⟨c, hc⟩
      refine ⟨c, hc, ?_⟩
      rw [hEQ]
      have hmapped : findCt (cts.map (aggExtend fixedN samples (List.range' n0 p)))
          (CName.serviceLevel s.index) =
            some (aggExtend fixedN samples (List.range' n0 p) c) := by
        rw [findCt_map hname, hc]
        rfl
      rw [findCt_append_left _ hmapped]
      rcases c with ⟨cname, clhs, cs, crh⟩
      have : cname = CName.serviceLevel s.index := findCt_name hc
      subst this
      rw [aggExtend_at_service _ _ _ _ _ _ _ hfound]
  · intro s hs i hi
    have halloc1 := halloc s hs i hi
    have hfound := find_sample_self samples s hidx hs
    constructor
    · rw [hEQ, countName_append, countName_map hname, countName_appended_alloc, halloc1]
    · rcases findCt_exists_of_pos (l := cts) (n := CName.chargerAllocation s.index i)
        (by omega) with ⟨c, hc⟩
      refine ⟨c, hc, ?_⟩
      rw [hEQ]
      have hmapped : findCt (cts.map (aggExtend fixedN samples (List.range' n0 p)))
          (CName.chargerAllocation s.index i) =
            some (aggExtend fixedN samples (List.range' n0 p) c) := by
        rw [findCt_map hname, hc]
        rfl
      rw [findCt_append_left _ hmapped]
      rcases c with ⟨cname, clhs, cs, crh⟩
      have : cname = CName.chargerAllocation s.index i := findCt_name hc
      subst this
      rw [aggExtend_at_alloc _ _ _ _ _ hi _ _ _ hfound]
  · intro k hk
    have hKnd : (List.range' n0 p).Nodup := List.nodup_range' ..
    refine ⟨?_, ?_, ?_, ?_⟩
    · rw [hEQ, countName_append, countName_map hname,
        countName_appended_numberW _ _ _ _ hKnd k hk]
    · rw [hEQ]
      exact List.mem_append_right _ (mem_appended_wLtMv _ _ _ _ _ hk)
    · rw [hEQ, countName_append, countName_map hname,
        countName_appended_numberV _ _ _ _ hKnd k hk]
    · rw [hEQ]
      exact List.mem_append_right _ (mem_appended_vLtW _ _ _ _ _ hk)
  · intro s hs k hk
    have hKnd : (List.range' n0 p).Nodup := List.nodup_range' ..
    constructor
    · rw [hEQ, countName_append, countName_map hname]
      have hflat : countName (appendedCts ub qs samples (List.range' n0 p))
          (CName.allocationQW s.index k) = 1 := by
        unfold appendedCts
        rw [countName_append, countName_append,
          countName_map_zero _ _ _ (fun a _ => by simp [wLtMvCt]),
          countName_map_zero _ _ _ (fun a _ => by simp [vLtWCt]),
          countName_flatMapQ_one qs _ hKnd samples hidx s hs k hk]
      rw [hflat]
    · rw [hEQ]
      exact List.mem_append_right _ (mem_appended_queue _ _ _ _ s hs k hk)

/-- C1 witness: with one sample, the existing service constraint of
`witCts1` is extended for the new block `range(1, 2)` and no second
service-level constraint appears. -/
theorem C1_extend_witness :
    (([witSample].map SampleCt.index).Nodup) ∧
    countName (update_constraints none 2 4 (1 / 2) [witSample] (List.range' 1 1) witCts1)
      (CName.serviceLevel 0) = 1 :=
  ⟨by decide,
    ((C1_aggregates_extended_perloc_appended none 2 4 (1 / 2) [witSample] 1 1 witCts1
        (by decide) (fun h => by simp at h) (by decide) (by decide)).2.1 witSample
      (by simp)).1⟩

theorem countName_singleton (c : Constraint) (n : CName) :
    countName [c] n = if c.name = n then 1 else 0 := by
  rw [show ([c] : ModelCts) = c :: [] from rfl, countName_cons, countName_nil]
  omega

theorem range'_append_simple (s m n : ℕ) :
    List.range' s m ++ List.range' (s + m) n = List.range' s (m + n) := by
  have h := List.range'_append s m n 1
  simp only [one_mul] at h
  rw [h, Nat.add_comm n m]

theorem mem_range'_iff (s n m : ℕ) : m ∈ List.range' s n ↔ s ≤ m ∧ m < s + n := by
  rw [List.mem_range']
  constructor
  · rintro ⟨i, hi, rfl⟩
    omega
  · intro h
    exact ⟨m - s, by omega, by omega⟩

theorem mem_createdSampleCts {sl : ℚ} {qs : ℕ} {K : List ℕ} {samples : List SampleCt}
    {c : Constraint} (hc : c ∈ createdSampleCts sl qs K samples) :
    ∃ s ∈ samples, (∃ k ∈ K, c = queueCt s qs k) ∨ c = serviceCtNew s sl K ∨
      ∃ i, i < s.nVehicles ∧ c = allocCtNew s i K := by
  induction samples with
  | nil => cases hc
  | cons s rest ih =>
      unfold createdSampleCts at hc
      rcases List.mem_append.mp hc with h | h
      · rcases List.mem_append.mp h with h | h
        · rcases List.mem_append.mp h with h | h
          · rcases List.mem_map.mp h with ⟨k, hk, rfl⟩
            exact ⟨s, List.mem_cons_self _ _, Or.inl ⟨k, hk, rfl⟩⟩
          · rcases List.mem_singleton.mp h with rfl
            exact ⟨s, List.mem_cons_self _ _, Or.inr (Or.inl rfl)⟩
        · rcases List.mem_map.mp h with ⟨i, hi, rfl⟩
          exact ⟨s, List.mem_cons_self _ _,
            Or.inr (Or.inr ⟨i, List.mem_range.mp hi, rfl⟩)⟩
      · rcases ih h with ⟨s2, hs2, hh⟩
        exact ⟨s2, List.mem_cons_of_mem _ hs2, hh⟩

theorem createdSampleCts_service_zero (sl : ℚ) (qs : ℕ) (K : List ℕ)
    (rest : List SampleCt) (n : ℕ) (h : ∀ s2 ∈ rest, s2.index ≠ n) :
    countName (createdSampleCts sl qs K rest) (CName.serviceLevel n) = 0 := by
  rw [countName_eq_zero]
  intro c hc
  rcases mem_createdSampleCts hc with ⟨s2, hs2, hcase⟩
  rcases hcase with ⟨k, _, rfl⟩ | rfl | ⟨i, _, rfl⟩
  · simp [queueCt]
  · simp [serviceCtNew, h s2 hs2]
  · simp [allocCtNew]

theorem createdSampleCts_alloc_zero (sl : ℚ) (qs : ℕ) (K : List ℕ)
    (rest : List SampleCt) (n i : ℕ) (h : ∀ s2 ∈ rest, s2.index ≠ n) :
    countName (createdSampleCts sl qs K rest) (CName.chargerAllocation n i) = 0 := by
  rw [countName_eq_zero]
  intro c hc
  rcases mem_createdSampleCts hc with ⟨s2, hs2, hcase⟩
  rcases hcase with ⟨k, _, rfl⟩ | rfl | ⟨i2, _, rfl⟩
  · simp [queueCt]
  · simp [serviceCtNew]
  · simp [allocCtNew, h s2 hs2]

theorem createdSampleCts_fixed_zero (sl : ℚ) (qs : ℕ) (K : List ℕ)
    (rest : List SampleCt) :
    countName (createdSampleCts sl qs K rest) CName.fixedStationNumber = 0 := by
  rw [countName_eq_zero]
  intro c hc
  rcases mem_createdSampleCts hc with ⟨s2, _, hcase⟩
  rcases hcase with ⟨k, _, rfl⟩ | rfl | ⟨i2, _, rfl⟩
  · simp [queueCt]
  · simp [serviceCtNew]
  · simp [allocCtNew]

theorem createdSampleCts_service_count (sl : ℚ) (qs : ℕ) (K : List ℕ)
    (samples : List SampleCt) (hidx : (samples.map SampleCt.index).Nodup)
    (s : SampleCt) (hs : s ∈ samples) :
    countName (createdSampleCts sl qs K samples) (CName.serviceLevel s.index) = 1 := by
  induction samples with
  | nil => cases hs
  | cons a rest ih =>
      unfold createdSampleCts
      rw [countName_append, countName_append, countName_append]
      rcases List.mem_cons.mp hs with rfl | hmem
      · rw [countName_map_zero _ _ _ (fun k _ => by simp [queueCt]),
          countName_map_zero _ _ _ (fun i _ => by simp [allocCtNew]),
          countName_singleton, if_pos (by simp [serviceCtNew]),
          createdSampleCts_service_zero _ _ _ _ _ (fun s2 hs2 he => by
            exact (List.nodup_cons.mp (by simpa using hidx)).1
              (he ▸ List.mem_map_of_mem SampleCt.index hs2))]
      · have hne : a.index ≠ s.index := by
          intro he
          exact (List.nodup_cons.mp (by simpa using hidx)).1
            (he ▸ List.mem_map_of_mem SampleCt.index hmem)
        rw [countName_map_zero _ _ _ (fun k _ => by simp [queueCt]),
          countName_map_zero _ _ _ (fun i _ => by simp [allocCtNew]),
          countName_singleton, if_neg (by simp [serviceCtNew, hne]),
          ih ((List.nodup_cons.mp (by simpa using hidx)).2) hmem]

theorem findCt_map_inj {g : ℕ → Constraint} (L : List ℕ) (hLnd : L.Nodup) (i : ℕ)
    (hi : i ∈ L) (n : CName) (hgn : (g i).name = n)
    (hg : ∀ k2 ∈ L, (g k2).name = n → k2 = i) :
    findCt (L.map g) n = some (g i) := by
  induction L with
  | nil => cases hi
  | cons b t ih =>
      rw [List.map_cons]
      unfold findCt
      rw [List.find?_cons]
      rcases List.mem_cons.mp hi with rfl | hmem
      · rw [show ((g i).name == n) = true from by simp [hgn]]
      · have hne : (g b).name ≠ n := by
          intro he
          have he2 : b = i := hg b (List.mem_cons_self _ _) he
          subst he2
          exact (List.nodup_cons.mp hLnd).1 hmem
        rw [show ((g b).name == n) = false from by simp [hne]]
        exact ih (List.nodup_cons.mp hLnd).2 hmem
          (fun k2 hk2 => hg k2 (List.mem_cons_of_mem _ hk2))

theorem createdSampleCts_alloc_facts (sl : ℚ) (qs : ℕ) (K : List ℕ)
    (samples : List SampleCt) (hidx : (samples.map SampleCt.index).Nodup)
    (s : SampleCt) (hs : s ∈ samples) (i : ℕ) (hi : i < s.nVehicles) :
    countName (createdSampleCts sl qs K samples) (CName.chargerAllocation s.index i) = 1 ∧
    findCt (createdSampleCts sl qs K samples) (CName.chargerAllocation s.index i) =
      some (allocCtNew s i K) := by
  induction samples with
  | nil => cases hs
  | cons a rest ih =>
      unfold createdSampleCts
      rcases List.mem_cons.mp hs with rfl | hmem
      · have hzero_rest : countName (createdSampleCts sl qs K rest)
            (CName.chargerAllocation s.index i) = 0 :=
          createdSampleCts_alloc_zero _ _ _ _ _ _ (fun s2 hs2 he => by
            exact (List.nodup_cons.mp (by simpa using hidx)).1
              (he ▸ List.mem_map_of_mem SampleCt.index hs2))
        have hQ0 : countName (K.map (queueCt s qs)) (CName.chargerAllocation s.index i) = 0 :=
          countName_map_zero _ _ _ (fun k _ => by simp [queueCt])
        have hS0 : countName [serviceCtNew s sl K] (CName.chargerAllocation s.index i) = 0 := by
          rw [countName_singleton, if_neg (by simp [serviceCtNew])]
        have hA1 : countName ((List.range s.nVehicles).map (fun i2 => allocCtNew s i2 K))
            (CName.chargerAllocation s.index i) = 1 := by
          rw [countName_ctmap_count _ _ i (by simp [allocCtNew])
            (fun k2 h => by simpa [allocCtNew] using h),
            List.count_eq_one_of_mem (List.nodup_range _) (List.mem_range.mpr hi)]
        have hfindX : findCt
            (K.map (queueCt s qs) ++ [serviceCtNew s sl K] ++
              (List.range s.nVehicles).map (fun i2 => allocCtNew s i2 K))
            (CName.chargerAllocation s.index i) = some (allocCtNew s i K) := by
          rw [findCt_append_right _ (by rw [countName_append, hQ0, hS0])]
          exact findCt_map_inj _ (List.nodup_range _) i (List.mem_range.mpr hi) _
            (by simp [allocCtNew]) (fun k2 _ h => by simpa [allocCtNew] using h)
        constructor
        · rw [countName_append, countName_append, countName_append, hQ0, hS0, hA1, hzero_rest]
        · exact findCt_append_left _ hfindX
      · have hne : a.index ≠ s.index := by
          intro he
          exact (List.nodup_cons.mp (by simpa using hidx)).1
            (he ▸ List.mem_map_of_mem SampleCt.index hmem)
        have hQ0 : countName (K.map (queueCt a qs)) (CName.chargerAllocation s.index i) = 0 :=
          countName_map_zero _ _ _ (fun k _ => by simp [queueCt])
        have hS0 : countName [serviceCtNew a sl K] (CName.chargerAllocation s.index i) = 0 := by
          rw [countName_singleton, if_neg (by simp [serviceCtNew])]
        have hA0 : countName ((List.range a.nVehicles).map (fun i2 => allocCtNew a i2 K))
            (CName.chargerAllocation s.index i) = 0 :=
          countName_map_zero _ _ _ (fun i2 _ => by simp [allocCtNew, hne])
        have hih := ih ((List.nodup_cons.mp (by simpa using hidx)).2) hmem
        constructor
        · rw [countName_append, countName_append, countName_append, hQ0, hS0, hA0, hih.1]
        · rw [findCt_append_right _ (by
            rw [countName_append, countName_append, hQ0, hS0, hA0])]
          exact hih.2

theorem allocTerms_append (s : SampleCt) (i : ℕ) (K1 K2 : List ℕ) :
    allocTerms s i (K1 ++ K2) = allocTerms s i K1 ++ allocTerms s i K2 := by
  unfold allocTerms
  rw [List.filter_append, List.map_append]

theorem allocCtNew_extend (s : SampleCt) (i n p : ℕ) :
    extendCt (allocCtNew s i (List.range' 0 n)) (allocTerms s i (List.range' n p)) =
      allocCtNew s i (List.range' 0 (n + p)) := by
  unfold extendCt allocCtNew exprOf
  dsimp only
  rw [← allocTerms_append,
    show List.range' 0 n ++ List.range' n p = List.range' 0 (n + p) from by
      have h := range'_append_simple 0 n p
      simpa using h]

theorem aggExtend_allocCtNew (fixedN : Option ℕ) (samples : List SampleCt) (K : List ℕ)
    (s : SampleCt) (i : ℕ) (hi : i < s.nVehicles)
    (hfound : samples.find? (fun x => x.index == s.index) = some s) (K0 : List ℕ) :
    aggExtend fixedN samples K (allocCtNew s i K0) =
      extendCt (allocCtNew s i K0) (allocTerms s i K) :=
  aggExtend_at_alloc fixedN samples K s i hi _ _ _ hfound

theorem aggExtend_numberW (fixedN : Option ℕ) (samples : List SampleCt) (K : List ℕ)
    (ub k : ℕ) : aggExtend fixedN samples K (wLtMvCt ub k) = wLtMvCt ub k := rfl

theorem aggExtend_numberV (fixedN : Option ℕ) (samples : List SampleCt) (K : List ℕ)
    (k : ℕ) : aggExtend fixedN samples K (vLtWCt k) = vLtWCt k := rfl

theorem modelInv_base (fixedN : Option ℕ) (ub qs : ℕ) (sl : ℚ)
    (samples : List SampleCt) (hidx : (samples.map SampleCt.index).Nodup) (sz : ℕ) :
    ModelInv fixedN ub samples sz
      (update_constraints fixedN ub qs sl samples (List.range' 0 sz) []) := by
  rw [update_constraints_create_empty fixedN ub qs sl samples _ hidx]
  rcases fixedN with _ | nfix
  · simp only [createdCts, List.nil_append]
    refine ⟨?_, ?_, ?_, ?_⟩
    · intro hsome
      simp at hsome
    · intro s hs
      rw [countName_append, countName_append,
        countName_map_zero _ _ _ (fun x _ => by simp [wLtMvCt]),
        countName_map_zero _ _ _ (fun x _ => by simp [vLtWCt]),
        createdSampleCts_service_count sl qs _ samples hidx s hs]
    · intro s hs i hi
      have hWV0 : countName ((List.range' 0 sz).map (wLtMvCt ub) ++
          (List.range' 0 sz).map vLtWCt) (CName.chargerAllocation s.index i) = 0 := by
        rw [countName_append,
          countName_map_zero _ _ _ (fun x _ => by simp [wLtMvCt]),
          countName_map_zero _ _ _ (fun x _ => by simp [vLtWCt])]
      obtain ⟨h1, h2⟩ :=
        createdSampleCts_alloc_facts sl qs (List.range' 0 sz) samples hidx s hs i hi
      constructor
      · rw [countName_append, hWV0, h1]
      · rw [findCt_append_right _ hWV0]
        exact h2
    · intro k hk
      have hkK : k ∈ List.range' 0 sz := (mem_range'_iff 0 sz k).mpr ⟨Nat.zero_le k, by omega⟩
      constructor
      · exact List.mem_append_left _ (List.mem_append_left _ (List.mem_map_of_mem _ hkK))
      · exact List.mem_append_left _ (List.mem_append_right _ (List.mem_map_of_mem _ hkK))
  · simp only [createdCts]
    refine ⟨?_, ?_, ?_, ?_⟩
    · intro _
      rw [countName_append, countName_append, countName_append,
        countName_singleton, if_pos (by simp [fixedCtNew]),
        countName_map_zero _ _ _ (fun x _ => by simp [wLtMvCt]),
        countName_map_zero _ _ _ (fun x _ => by simp [vLtWCt]),
        createdSampleCts_fixed_zero]
    · intro s hs
      rw [countName_append, countName_append, countName_append,
        countName_singleton, if_neg (by simp [fixedCtNew]),
        countName_map_zero _ _ _ (fun x _ => by simp [wLtMvCt]),
        countName_map_zero _ _ _ (fun x _ => by simp [vLtWCt]),
        createdSampleCts_service_count sl qs _ samples hidx s hs]
    · intro s hs i hi
      have hpre : countName ([fixedCtNew nfix (List.range' 0 sz)] ++
          (List.range' 0 sz).map (wLtMvCt ub) ++ (List.range' 0 sz).map vLtWCt)
          (CName.chargerAllocation s.index i) = 0 := by
        rw [countName_append, countName_append,
          countName_singleton, if_neg (by simp [fixedCtNew]),
          countName_map_zero _ _ _ (fun x _ => by simp [wLtMvCt]),
          countName_map_zero _ _ _ (fun x _ => by simp [vLtWCt])]
      obtain ⟨h1, h2⟩ :=
        createdSampleCts_alloc_facts sl qs (List.range' 0 sz) samples hidx s hs i hi
      constructor
      · rw [countName_append, hpre, h1]
      · rw [findCt_append_right _ hpre]
        exact h2
    · intro k hk
      have hkK : k ∈ List.range' 0 sz := (mem_range'_iff 0 sz k).mpr ⟨Nat.zero_le k, by omega⟩
      constructor
      · exact List.mem_append_left _
          (List.mem_append_left _ (List.mem_append_right _ (List.mem_map_of_mem _ hkK)))
      · exact List.mem_append_left _
          (List.mem_append_right _ (List.mem_map_of_mem _ hkK))

theorem modelInv_step (fixedN : Option ℕ) (ub qs : ℕ) (sl : ℚ)
    (samples : List SampleCt) (hidx : (samples.map SampleCt.index).Nodup)
    (n p : ℕ) (cts : ModelCts) (hinv : ModelInv fixedN ub samples n cts) :
    ModelInv fixedN ub samples (n + p)
      (update_constraints fixedN ub qs sl samples (List.range' n p) cts) := by
  obtain ⟨hfix, hserv, halloc, hloc⟩ := hinv
  have hEQ := update_constraints_extend fixedN ub qs sl samples (List.range' n p) cts
    hidx hfix hserv (fun s hs i hi => (halloc s hs i hi).1)
  have hname := aggExtend_name fixedN samples (List.range' n p)
  refine ⟨?_, ?_, ?_, ?_⟩
  · intro hsome
    rw [hEQ, countName_append, countName_map hname, countName_appended_fixed]
    have := hfix hsome
    omega
  · intro s hs
    rw [hEQ, countName_append, countName_map hname, countName_appended_service]
    have := hserv s hs
    omega
  · intro s hs i hi
    obtain ⟨hcnt, hfind⟩ := halloc s hs i hi
    constructor
    · rw [hEQ, countName_append, countName_map hname, countName_appended_alloc]
      omega
    · rw [hEQ]
      have hmapped : findCt (cts.map (aggExtend fixedN samples (List.range' n p)))
          (CName.chargerAllocation s.index i) =
            some (aggExtend fixedN samples (List.range' n p)
              (allocCtNew s i (List.range' 0 n))) := by
        rw [findCt_map hname, hfind]
        rfl
      rw [findCt_append_left _ hmapped,
        aggExtend_allocCtNew fixedN samples _ s i hi (find_sample_self samples s hidx hs) _,
        allocCtNew_extend]
  · intro k hk
    by_cases hkn : k < n
    · obtain ⟨hw, hv⟩ := hloc k hkn
      rw [hEQ]
      constructor
      · exact List.mem_append_left _
          (List.mem_map.mpr ⟨wLtMvCt ub k, hw, aggExtend_numberW fixedN samples _ ub k⟩)
      · exact List.mem_append_left _
          (List.mem_map.mpr ⟨vLtWCt k, hv, aggExtend_numberV fixedN samples _ k⟩)
    · have hkK : k ∈ List.range' n p := (mem_range'_iff n p k).mpr ⟨by omega, by omega⟩
      rw [hEQ]
      exact ⟨List.mem_append_right _ (mem_appended_wLtMv _ _ _ _ _ hkK),
        List.mem_append_right _ (mem_appended_vLtW _ _ _ _ _ hkK)⟩

theorem modelInv_fold (fixedN : Option ℕ) (ub qs : ℕ) (sl : ℚ)
    (samples : List SampleCt) (hidx : (samples.map SampleCt.index).Nodup) :
    ∀ (sizes : List ℕ) (off : ℕ) (cts : ModelCts),
      ModelInv fixedN ub samples off cts →
      ModelInv fixedN ub samples (off + sizes.sum)
        (buildModelAux fixedN ub qs sl samples sizes off cts) := by
  intro sizes
  induction sizes with
  | nil =>
      intro off cts h
      simpa [buildModelAux] using h
  | cons sz rest ih =>
      intro off cts h
      have hstep := modelInv_step fixedN ub qs sl samples hidx off sz cts h
      have hrec := ih (off + sz) _ hstep
      simpa [buildModelAux, List.sum_cons, Nat.add_assoc] using hrec

theorem modelAfter_inv (fixedN : Option ℕ) (ub qs : ℕ) (sl : ℚ)
    (samples : List SampleCt) (hidx : (samples.map SampleCt.index).Nodup)
    (sz0 : ℕ) (rest : List ℕ) :
    ModelInv fixedN ub samples ((sz0 :: rest).sum)
      (modelAfter fixedN ub qs sl samples (sz0 :: rest)) := by
  unfold modelAfter
  have hbase := modelInv_base fixedN ub qs sl samples hidx sz0
  have hall := modelInv_fold fixedN ub qs sl samples hidx rest (0 + sz0) _
    (by simpa [Nat.zero_add] using hbase)
  simpa [buildModelAux, List.sum_cons, Nat.zero_add, Nat.add_assoc] using hall

theorem evalExpr_exprOf (a : CVar → ℚ) (ts : List LinTerm) :
    evalExpr a (exprOf ts) = (ts.map (fun t => t.coef * a t.var)).sum := by
  simp [evalExpr, exprOf]

theorem evalExpr_const (a : CVar → ℚ) (c : ℚ) : evalExpr a (constExpr c) = c := by
  simp [evalExpr, constExpr]

theorem evalExpr_single (a : CVar → ℚ) (c : ℚ) (x : CVar) :
    evalExpr a (exprOf [⟨c, x⟩]) = c * a x := by
  simp [evalExpr, exprOf]

theorem allocTerms_cons (s : SampleCt) (i b : ℕ) (t : List ℕ) :
    allocTerms s i (b :: t) =
      (if s.reach i b then [⟨1, CVar.u s.index i b⟩] else []) ++ allocTerms s i t := by
  unfold allocTerms
  rw [List.filter_cons]
  by_cases hb : s.reach i b = true
  · rw [if_pos hb, if_pos hb, List.map_cons, List.singleton_append]
  · rw [if_neg hb, if_neg hb, List.nil_append]

theorem allocTerms_sum (a : CVar → ℚ) (s : SampleCt) (i : ℕ) (K : List ℕ) :
    ((allocTerms s i K).map (fun t => t.coef * a t.var)).sum =
      (K.map (fun k => uVal a s i k)).sum := by
  induction K with
  | nil => rfl
  | cons b t ih =>
      rw [allocTerms_cons, List.map_append, List.sum_append, ih,
        List.map_cons, List.sum_cons]
      unfold uVal
      by_cases hb : s.reach i b = true
      · rw [if_pos hb, if_pos hb]
        dsimp only [List.map_cons, List.map_nil, List.sum_cons, List.sum_nil]
        ring
      · rw [if_neg hb, if_neg hb]
        dsimp only [List.map_nil, List.sum_nil]

/-- C3: every assignment satisfying the constraints posted after a nonempty
sequence of candidate blocks (hence every solved assignment) obeys, at
every location `k`, `built[k] ≤ count[k] ≤ station_ub·built[k]` (the
`number_v_k` and `number_w_k` constraints), and for every sample `s` and
demand point `i` the allocation entries summed over all locations — an
unreachable entry being the constant `0` the model stores there — total at
most 1 (the `charger_allocation_s_i` constraint). -/
theorem C3_posted_invariants (fixedN : Option ℕ) (ub qs : ℕ) (sl : ℚ)
    (samples : List SampleCt) (sz0 : ℕ) (rest : List ℕ) (a : CVar → ℚ)
    (hidx : (samples.map SampleCt.index).Nodup)
    (hsat : ∀ c ∈ modelAfter fixedN ub qs sl samples (sz0 :: rest), ctHolds a c) :
    (∀ k, k < (sz0 :: rest).sum →
      a (CVar.v k) ≤ a (CVar.w k) ∧ a (CVar.w k) ≤ (ub : ℚ) * a (CVar.v k)) ∧
    (∀ s ∈ samples, ∀ i, i < s.nVehicles →
      ((List.range ((sz0 :: rest).sum)).map (fun k => uVal a s i k)).sum ≤ 1) := by
  obtain ⟨hfix, hserv, halloc, hloc⟩ := modelAfter_inv fixedN ub qs sl samples hidx sz0 rest
  constructor
  · intro k hk
    obtain ⟨hw, hv⟩ := hloc k hk
    constructor
    · have h1 : evalExpr a (exprOf [⟨1, CVar.v k⟩]) ≤ evalExpr a (exprOf [⟨1, CVar.w k⟩]) :=
        hsat _ hv
      rw [evalExpr_single, evalExpr_single, one_mul, one_mul] at h1
      exact h1
    · have h1 : evalExpr a (exprOf [⟨1, CVar.w k⟩]) ≤
          evalExpr a (exprOf [⟨(ub : ℚ), CVar.v k⟩]) := hsat _ hw
      rw [evalExpr_single, evalExpr_single, one_mul] at h1
      exact h1
  · intro s hs i hi
    obtain ⟨_, hfind⟩ := halloc s hs i hi
    have h1 : evalExpr a (exprOf (allocTerms s i (List.range' 0 ((sz0 :: rest).sum)))) ≤
        evalExpr a (constExpr 1) := hsat _ (findCt_mem hfind)
    rw [evalExpr_const, evalExpr_exprOf, allocTerms_sum] at h1
    rw [List.range_eq_range']
    exact h1

/-- C3 witness: under the all-ones assignment, which satisfies every
constraint of the one-sample one-candidate model, the count-bound
invariants hold at location 0. -/
theorem C3_invariants_witness :
    c3Assign (CVar.v 0) ≤ c3Assign (CVar.w 0) ∧
    c3Assign (CVar.w 0) ≤ ((2 : ℕ) : ℚ) * c3Assign (CVar.v 0) := by
  have hsatW : ∀ c ∈ modelAfter none 2 4 (1 / 2) [witSample] [1], ctHolds c3Assign c := by
    intro c hc
    have hEq : modelAfter none 2 4 (1 / 2) [witSample] [1] =
        [wLtMvCt 2 0, vLtWCt 0, queueCt witSample 4 0,
         serviceCtNew witSample (1 / 2) (List.range' 0 1),
         allocCtNew witSample 0 (List.range' 0 1)] := rfl
    rw [hEq] at hc
    simp only [List.mem_cons, List.not_mem_nil, or_false] at hc
    rcases hc with rfl | rfl | rfl | rfl | rfl
    · show ctHolds c3Assign (wLtMvCt 2 0)
      norm_num [ctHolds, wLtMvCt, evalExpr, exprOf, c3Assign]
    · show ctHolds c3Assign (vLtWCt 0)
      norm_num [ctHolds, vLtWCt, evalExpr, exprOf, c3Assign]
    · show ctHolds c3Assign (queueCt witSample 4 0)
      norm_num [ctHolds, queueCt, queueTerms, evalExpr, exprOf, c3Assign, witSample,
        List.range_succ]
    · show ctHolds c3Assign (serviceCtNew witSample (1 / 2) (List.range' 0 1))
      norm_num [ctHolds, serviceCtNew, serviceTerms, evalExpr, exprOf, constExpr, c3Assign,
        witSample, List.range_succ, List.range']
    · show ctHolds c3Assign (allocCtNew witSample 0 (List.range' 0 1))
      norm_num [ctHolds, allocCtNew, allocTerms, evalExpr, exprOf, constExpr, c3Assign,
        witSample, List.range']
  exact (C3_posted_invariants none 2 4 (1 / 2) [witSample] 1 [] c3Assign (by decide)
    hsatW).1 0 (by decide)

end EVStation
